import Mathlib

/-!
# Verification of the tree-indexing and incremental fuzzy-search core of `nav`

This file gives a shallow embedding, in Lean 4, of the concurrent
tree-indexing / incremental fuzzy-search subsystem of the `nav` filesystem
navigator, and proves (or refutes) the frozen specification claims about it.

Modelling conventions:

* Go strings are modelled as `List Char`; filesystem names and joined paths
  are character lists, with the path separator an explicit character.
* A Go `*treeNode` pointer is identified with the node's *position* in the
  tree: the list of child indices from the root.  Ownership in the source is
  strictly tree-shaped (a node has exactly one parent), so pointer identity
  and position identity coincide.
* The filesystem is identified with the already-materialised tree: a
  successful `loadChildren` yields exactly the children stored in the tree
  value.  Disk failures are modelled explicitly where a claim is about them.
* The third-party fuzzy matcher `fuzzy.Find` is an external collaborator; all
  dispatcher-level theorems are proved for an arbitrary matcher function
  `find`, which is strictly more general than any concrete model of it.
* Go `int` values that can go negative in the source (the tree cursor
  `treeIdx`) are modelled as `Int`; values that are always list lengths or
  list indices are modelled as `Nat`.
-/

namespace Nav

/-! ## Entries, matches, and the merge function -/

/-- Relevant data of the Go `entry` type (`entry.Name()`,
`hasMode(entryModeDir)`, `hasMode(entryModeHidden)`).  Only the attributes the
core reads are modelled. -/
structure entry where
  name : List Char
  isDir : Bool
  hidden : Bool
deriving DecidableEq, Repr

/-- The fields of `fuzzy.Match` that the core reads or writes:
`Index` (position of the matched name in the searched slice) and `Score`. -/
structure Match where
  index : Nat
  score : Int
deriving DecidableEq, Repr

/-- `mergeMatchesByScore` from `cursor.go`: merges two score-sorted match
slices, taking from `a` while `a[i].Score >= b[j].Score`. -/
def mergeMatchesByScore : List Match → List Match → List Match
  | [], b => b
  | a, [] => a
  | x :: a, y :: b =>
    if x.score ≥ y.score then x :: mergeMatchesByScore a (y :: b)
    else y :: mergeMatchesByScore (x :: a) b

/-- Descending-by-score order used for match lists. -/
def scoreGE (u v : Match) : Prop := v.score ≤ u.score

instance : DecidableRel scoreGE := fun u v => inferInstanceAs (Decidable (v.score ≤ u.score))

/-! ## The tree node graph

A Go `*treeNode` is identified with its position in the tree (the list of
child indices from the root), written `Pos`.  `fullPath` is not stored but
recomputed from the base path and the entry names along the position, exactly
as `newTreeNode` derives it. -/

/-- The Go `treeNode` struct.  The `parent` back-reference is not stored: with
position-based identity the parent of `p ++ [i]` is `p`.  `fullPath` is the
derived join of the base path and the names along the position. -/
inductive treeNode : Type where
  | node (ent : Option entry) (expanded loaded : Bool) (children : List treeNode)
deriving Repr

abbrev Pos := List Nat

/-- Go strings are lists of characters. -/
abbrev Str := List Char

/-- `var fileSeparator = string(filepath.Separator)` on a POSIX system. -/
def fileSeparator : Char := '/'

def treeNode.ent : treeNode → Option entry
  | .node e _ _ _ => e

def treeNode.expanded : treeNode → Bool
  | .node _ e _ _ => e

def treeNode.loaded : treeNode → Bool
  | .node _ _ l _ => l

def treeNode.children : treeNode → List treeNode
  | .node _ _ _ cs => cs

/-- The hidden-file rule used throughout the source:
`n.entry != nil && !modeHidden && n.entry.hasMode(entryModeHidden)`. -/
def skipHidden (modeHidden : Bool) : Option entry → Bool
  | none => false
  | some e => !modeHidden && e.hidden

/-- Dereference a position: the subtree the pointer refers to. -/
def subtreeAt : treeNode → Pos → Option treeNode
  | t, [] => some t
  | t, i :: p =>
    match t.children.get? i with
    | some c => subtreeAt c p
    | none => none

/-- The `entry` field of the node at a position (`none` for the virtual root
or an invalid position). -/
def entryAt (t : treeNode) (q : Pos) : Option entry :=
  (subtreeAt t q).bind treeNode.ent

/-- `node.entry != nil ? node.entry.Name() : ""` for an index entry. -/
def nodeNameAt (t : treeNode) (q : Pos) : Str :=
  match entryAt t q with
  | some e => e.name
  | none => []

/-- `fullPath` of the node at a position: the base path joined with the entry
names along the position, as `newTreeNode` computes it.  `none` when the
position is invalid or crosses an entry-less node (unreachable in the source:
only the virtual root lacks an entry). -/
def fullPathAt (base : Str) : treeNode → Pos → Option Str
  | _, [] => some base
  | t, i :: p =>
    match t.children.get? i with
    | some c =>
      match c.ent with
      | some e => fullPathAt (base ++ fileSeparator :: e.name) c p
      | none => none
    | none => none

mutual
/-- In-place mutation of the node a pointer refers to (e.g.
`node.parent.expanded = false`). -/
def updateAt : treeNode → Pos → (treeNode → treeNode) → treeNode
  | t, [], f => f t
  | .node e x l cs, i :: p, f => .node e x l (updateChild cs i p f)

def updateChild : List treeNode → Nat → Pos → (treeNode → treeNode) → List treeNode
  | [], _, _, _ => []
  | c :: rest, 0, p, f => updateAt c p f :: rest
  | c :: rest, i + 1, p, f => c :: updateChild rest i p f
end

def setExpanded (b : Bool) : treeNode → treeNode
  | .node e _ l cs => .node e b l cs

mutual
/-- `flattenInto` from `tree.go`: visible nodes of a subtree in DFS order
(skip hidden, emit the node, recurse only when `expanded && loaded`).
Positions are relative to the given node. -/
def flattenInto (modeHidden : Bool) : treeNode → List Pos
  | .node ent exp ld cs =>
    if skipHidden modeHidden ent then []
    else [] :: (if exp && ld then flattenChildren modeHidden cs 0 else [])

def flattenChildren (modeHidden : Bool) : List treeNode → Nat → List Pos
  | [], _ => []
  | c :: rest, i =>
      (flattenInto modeHidden c).map (i :: ·) ++ flattenChildren modeHidden rest (i + 1)
end

mutual
/-- All positions of a tree in DFS preorder (the full node set, no
visibility rules).  Specification-side enumeration. -/
def allPositions : treeNode → List Pos
  | .node _ _ _ cs => [] :: allChildren cs 0

def allChildren : List treeNode → Nat → List Pos
  | [], _ => []
  | c :: rest, i => (allPositions c).map (i :: ·) ++ allChildren rest (i + 1)
end

mutual
/-- `collectAllDescendants` from `tree.go`: every node of the subtree in DFS
order regardless of `expanded`, pruning hidden nodes; directories are loaded
on demand, which in this model (filesystem = materialised tree) yields the
stored children. -/
def collectAllDescendants (modeHidden : Bool) : treeNode → List Pos
  | .node ent _ _ cs =>
    if skipHidden modeHidden ent then []
    else [] :: (if (ent.map entry.isDir).getD false then collectChildren modeHidden cs 0 else [])

def collectChildren (modeHidden : Bool) : List treeNode → Nat → List Pos
  | [], _ => []
  | c :: rest, i =>
      (collectAllDescendants modeHidden c).map (i :: ·) ++ collectChildren modeHidden rest (i + 1)
end

/-! ## The filtered view builder (`buildFilteredTree`) -/

/-- Membership in the include set of `buildFilteredTree`: the ancestor
closure of the match set.  Walking `parent` pointers up from a match marks
exactly the prefixes of its position. -/
def inClosure (ms : List Pos) (q : Pos) : Bool :=
  ms.any (fun m => q.isPrefixOf m)

/-- Restriction of a match set to the subtree rooted at child `i`
(positions relative to that child). -/
def childMatches (i : Nat) (ms : List Pos) : List Pos :=
  ms.filterMap (fun m =>
    match m with
    | j :: rest => if j = i then some rest else none
    | [] => none)

mutual
/-- `buildFilteredTreeFlatten` from `tree.go`: DFS over the subtree emitting
only include-set nodes; the include-set test for the node itself is
`matches ≠ []` (the node is an ancestor of a match iff some match position
remains), hidden nodes prune their subtree, entry-less nodes are skipped but
recursed into.  Positions are relative to the given node. -/
def buildFilteredTreeFlatten (modeHidden : Bool) (ms : List Pos) : treeNode → List Pos
  | .node ent _ _ cs =>
    if ms.isEmpty then []
    else if skipHidden modeHidden ent then []
    else (if ent.isSome then [([] : Pos)] else []) ++ filteredChildren modeHidden ms cs 0

def filteredChildren (modeHidden : Bool) (ms : List Pos) : List treeNode → Nat → List Pos
  | [], _ => []
  | c :: rest, i =>
      (buildFilteredTreeFlatten modeHidden (childMatches i ms) c).map (i :: ·) ++
        filteredChildren modeHidden ms rest (i + 1)
end

/-- `buildFilteredTree` from `tree.go`. -/
def buildFilteredTree (root : treeNode) (ms : List Pos) (modeHidden : Bool) : List Pos :=
  if ms.isEmpty then [] else buildFilteredTreeFlatten modeHidden ms root

/-! ## The streaming indexer (`streamDFS`) -/

/-- `const searchBatchSize = 500` from `tree.go`. -/
def searchBatchSize : Nat := 500

mutual
/-- Number of nodes of a tree (termination measure for the explicit-stack
walk). -/
def sizeT : treeNode → Nat
  | .node _ _ _ cs => sizeL cs + 1

def sizeL : List treeNode → Nat
  | [] => 0
  | c :: rest => sizeT c + sizeL rest
end

/-- The children of a node paired with their positions, in visit order.
`streamDFS` pushes children in reverse index order so that they are popped
(and hence visited) in index order; prepending this list to the stack models
exactly that. -/
def pushChildren (q : Pos) : List treeNode → Nat → List (Pos × treeNode)
  | [], _ => []
  | c :: rest, i => (q ++ [i], c) :: pushChildren q rest (i + 1)

theorem pushChildren_sizeSum (q : Pos) (cs : List treeNode) (i : Nat) :
    ((pushChildren q cs i).map (fun e => sizeT e.2)).sum = sizeL cs := by
  induction cs generalizing i with
  | nil => rfl
  | cons c rest ih => simp [pushChildren, sizeL, ih]

theorem sizeT_pos (t : treeNode) : 0 < sizeT t := by
  cases t with
  | node e x l cs => simp [sizeT]

/-- The main loop of `streamDFS` from `tree.go`, for an uncancelled run
(`ctx` never fires): pop a node, skip it if hidden (pruning its subtree),
load and push its children, add it to the current batch unless it is the
virtual root, and flush the batch whenever it reaches `searchBatchSize`.
The final batch is always sent, even when empty.  The value is the list of
batches sent on the channel, in order. -/
def streamDFSLoop (modeHidden : Bool) : List (Pos × treeNode) → List Pos → List (List Pos)
  | [], batch => [batch]
  | (q, t) :: stack, batch =>
    if skipHidden modeHidden t.ent then streamDFSLoop modeHidden stack batch
    else
      let batch' := if t.ent.isSome then batch ++ [q] else batch
      let stack' := pushChildren q t.children 0 ++ stack
      if searchBatchSize ≤ batch'.length then
        batch' :: streamDFSLoop modeHidden stack' []
      else
        streamDFSLoop modeHidden stack' batch'
termination_by stack _ => (stack.map (fun e => sizeT e.2)).sum
decreasing_by
  all_goals cases t
  all_goals
    simp_all [List.map_append, List.sum_append, pushChildren_sizeSum, treeNode.children, sizeT]

/-- `streamDFS` on a (non-nil) root: the batches an uncancelled run sends. -/
def streamDFS (root : treeNode) (modeHidden : Bool) : List (List Pos) :=
  streamDFSLoop modeHidden [([], root)] []

/-- A `searchIndexBatchMsg` as delivered to `Update` by `pollSearchIndexCmd`:
the batches of an uncancelled run (each with `done=false`), followed, once the
goroutine has closed the channel, by a `done=true` message with no nodes. -/
structure searchIndexBatchMsg where
  nodes : List Pos
  done : Bool
  generation : Int
deriving Repr

/-- The message sequence `pollSearchIndexCmd` delivers for one uncancelled
indexer run tagged with generation `gen`. -/
def indexerMessages (root : treeNode) (modeHidden : Bool) (gen : Int) :
    List searchIndexBatchMsg :=
  (streamDFS root modeHidden).map (fun b => ⟨b, false, gen⟩) ++ [⟨[], true, gen⟩]

/-! ## The dispatcher model

The fields of the Go `model` struct that the tree-mode search machinery
reads or writes.  Channels and cancel functions are modelled by the
observable facts the dispatcher branches on (`searchIndexChan != nil`,
`searchQueryChan != nil`); the goroutines themselves are external processes
whose outputs arrive as messages. -/

structure model where
  path : Str
  search : Str
  modeSearch : Bool
  modeTree : Bool
  modeHidden : Bool
  height : Int
  treeRoot : treeNode
  visibleNodes : List Pos
  treeIdx : Int
  scrollOffset : Int
  displayed : Nat
  treeLastChild : List (Str × Str)
  treeSearchStartNode : Option Pos
  searchMatchNodes : List Pos
  searchIndexNodes : List Pos
  searchIndexNames : List Str
  searchIndexLoading : Bool
  searchIndexChanOpen : Bool
  searchQueryChanOpen : Bool
  searchIndexGeneration : Int
  searchWorkerGeneration : Int
  searchPendingMatches : List Match

/-- Go's `max(i, j int)` clamp at the end of every rebuild:
`if m.treeIdx >= len(m.visibleNodes) { m.treeIdx = max(0, len(m.visibleNodes)-1) }`. -/
def clampTreeIdx (idx : Int) (n : Nat) : Int :=
  if (n : Int) ≤ idx then max 0 ((n : Int) - 1) else idx

/-- `map[string]string` lookup for `treeLastChild` (latest insertion wins). -/
def lookupStr : List (Str × Str) → Str → Option Str
  | [], _ => none
  | (k, v) :: rest, key => if k = key then some v else lookupStr rest key

/-- Convert node pointers (absolute positions) into positions relative to a
subtree root.  Go passes the pointers directly; a pointer that is not in the
subtree is marked in the include set but is unreachable from the subtree's
flatten, so dropping it here is observationally identical. -/
def relPositions (r : Pos) (qs : List Pos) : List Pos :=
  qs.filterMap (fun q => if r.isPrefixOf q then some (q.drop r.length) else none)

/-- `m.selectedTreeNode()`:
`if m.treeIdx >= 0 && m.treeIdx < len(m.visibleNodes)`. -/
def selectedTreeNode (m : model) : Option Pos :=
  if 0 ≤ m.treeIdx then m.visibleNodes.get? m.treeIdx.toNat else none

/-- A dummy node used as the (unreachable in Go) default when a stored
position no longer dereferences; pointers cannot dangle in the source. -/
def dummyNode : treeNode := .node none false false []

/-- `m.rebuildVisibleNodesFromMatches(fuzzyMatches)` from `cursor.go`:
resolve match indices against the index, keep only nodes under the search
root (string-prefix test on full paths), rebuild the filtered tree and clamp
the cursor. -/
def rebuildVisibleNodesFromMatches (m : model) (fuzzyMatches : List Match) : model :=
  if fuzzyMatches.isEmpty then
    { m with visibleNodes := [], displayed := 0, searchMatchNodes := [],
             treeIdx := clampTreeIdx m.treeIdx 0 }
  else
    let r := m.treeSearchStartNode.getD []
    let rpath := (fullPathAt m.path m.treeRoot r).getD []
    let keep : Pos → Bool := fun q =>
      match fullPathAt m.path m.treeRoot q with
      | some qpath => qpath == rpath || (rpath ++ [fileSeparator]).isPrefixOf qpath
      | none => false
    let matchingNodes := fuzzyMatches.filterMap (fun mt =>
      match m.searchIndexNodes.get? mt.index with
      | some q => if keep q then some q else none
      | none => none)
    let rsub := (subtreeAt m.treeRoot r).getD dummyNode
    let vis := (buildFilteredTree rsub (relPositions r matchingNodes) m.modeHidden).map (r ++ ·)
    { m with searchMatchNodes := matchingNodes, visibleNodes := vis, displayed := vis.length,
             treeIdx := clampTreeIdx m.treeIdx vis.length }

/-- `m.rebuildVisibleNodesFromIndex()` from `cursor.go`. -/
def rebuildVisibleNodesFromIndex (find : Str → List Str → List Match) (m : model) : model :=
  if m.searchIndexNodes.isEmpty || m.search.isEmpty then
    { m with visibleNodes := [], displayed := 0,
             treeIdx := clampTreeIdx m.treeIdx 0 }
  else
    rebuildVisibleNodesFromMatches m (find m.search m.searchIndexNames)

/-- `m.rebuildVisibleNodesWithSearch()` from `cursor.go` (the version with the
cached-index fast path): prefers the accumulated index, otherwise collects the
search root's descendants on demand and fuzzy-matches them. -/
def rebuildVisibleNodesWithSearch (find : Str → List Str → List Match) (m : model) : model :=
  if m.search.isEmpty then
    { m with visibleNodes := [], displayed := 0,
             treeIdx := clampTreeIdx m.treeIdx 0 }
  else if ¬m.searchIndexNodes.isEmpty then
    rebuildVisibleNodesFromIndex find m
  else
    let r := m.treeSearchStartNode.getD []
    let allNodes :=
      if r = [] then collectChildren m.modeHidden m.treeRoot.children 0
      else ((collectAllDescendants m.modeHidden ((subtreeAt m.treeRoot r).getD dummyNode)).map (r ++ ·))
    if allNodes.isEmpty then
      { m with visibleNodes := [], displayed := 0, treeIdx := 0 }
    else
      let nodeNames := allNodes.map (nodeNameAt m.treeRoot)
      let fuzzyMatches := find m.search nodeNames
      if fuzzyMatches.isEmpty then
        { m with visibleNodes := [], displayed := 0, treeIdx := 0 }
      else
        let matchingNodes := fuzzyMatches.filterMap (fun mt => allNodes.get? mt.index)
        let rsub := (subtreeAt m.treeRoot r).getD dummyNode
        let vis := (buildFilteredTree rsub (relPositions r matchingNodes) m.modeHidden).map (r ++ ·)
        { m with searchMatchNodes := matchingNodes, visibleNodes := vis,
                 displayed := vis.length, treeIdx := clampTreeIdx m.treeIdx vis.length }

/-- `m.rebuildVisibleNodes()` from `cursor.go`: unfiltered flatten of the
expanded tree (the virtual root's own flags are not consulted: its children
are flattened directly), or the search rebuild when a query is set. -/
def rebuildVisibleNodes (find : Str → List Str → List Match) (m : model) : model :=
  if ¬m.search.isEmpty then
    rebuildVisibleNodesWithSearch find m
  else
    let vis := flattenChildren m.modeHidden m.treeRoot.children 0
    { m with visibleNodes := vis, displayed := vis.length,
             treeIdx := clampTreeIdx m.treeIdx vis.length }

/-- State effects of `m.stopSearchWorker()`: the worker goroutine is
cancelled and its channels are detached from the model. -/
def stopSearchWorker (m : model) : model :=
  { m with searchQueryChanOpen := false }

/-- State effects of `m.startSearchWorker()`: stop any existing worker, and
unless tree mode is off, bump the worker generation and open fresh channels. -/
def startSearchWorker (m : model) : model :=
  let m1 := stopSearchWorker m
  if ¬m1.modeTree then m1
  else { m1 with searchWorkerGeneration := m1.searchWorkerGeneration + 1,
                 searchQueryChanOpen := true }

/-- The two asynchronous message shapes `Update` receives. -/
inductive teaMsg where
  | searchIndexBatch (nodes : List Pos) (done : Bool) (generation : Int)
  | fuzzySearchResult (query : Str) (ms : List Match) (generation : Int)
deriving DecidableEq, Repr

/-- The `fuzzySearchResultMsg` and `searchIndexBatchMsg` cases of
`model.Update` from `actions.go`: generation guard, query guard, index
append, incremental fuzzy matching with index-offset shift, merge into the
pending match set, rebuild, and on `done` the loading teardown plus the
deferred worker start. -/
def dispatchMsg (find : Str → List Str → List Match) (m : model) : teaMsg → model
  | .fuzzySearchResult q ms gen =>
    if gen ≠ m.searchWorkerGeneration then m
    else if q ≠ m.search then m
    else rebuildVisibleNodesFromMatches m ms
  | .searchIndexBatch nodes done gen =>
    if gen ≠ m.searchIndexGeneration then m
    else
      let startIdx := m.searchIndexNodes.length
      let m1 := { m with searchIndexNodes := m.searchIndexNodes ++ nodes,
                         searchIndexNames :=
                           m.searchIndexNames ++ nodes.map (nodeNameAt m.treeRoot) }
      let m2 :=
        if ¬m1.search.isEmpty ∧ ¬nodes.isEmpty then
          let newNames := m1.searchIndexNames.drop startIdx
          let newMatches := (find m1.search newNames).map
            (fun mt => { mt with index := mt.index + startIdx })
          let pending := mergeMatchesByScore m1.searchPendingMatches newMatches
          rebuildVisibleNodesFromMatches { m1 with searchPendingMatches := pending } pending
        else m1
      if ¬done then m2
      else
        let m3 : model :=
          { m2 with searchIndexLoading := false, searchIndexChanOpen := false,
                    searchPendingMatches := [] }
        if m3.modeSearch && m3.modeTree && !m3.searchQueryChanOpen &&
            decide (0 < m3.searchIndexNodes.length) then
          startSearchWorker m3
        else m3

/-- Folding a sequence of asynchronous messages through the dispatcher. -/
def dispatchMsgs (find : Str → List Str → List Match) (m : model) (msgs : List teaMsg) : model :=
  msgs.foldl (dispatchMsg find) m

/-- Specification-side description of one batch-level match computation: the
batch's names are matched in isolation and every match index is shifted by
the index length observed before the batch was appended. -/
def batchMatches (find : Str → List Str → List Match) (q : Str) (startIdx : Nat)
    (names : List Str) : List Match :=
  (find q names).map (fun mt => { mt with index := mt.index + startIdx })

/-- Specification-side running merge of all per-batch match computations,
threading the index length across batches. -/
def mergeAllBatches (find : Str → List Str → List Match) (q : Str) :
    List (List Str) → Nat → List Match → List Match
  | [], _, pending => pending
  | names :: rest, startIdx, pending =>
    let pending' :=
      if ¬names.isEmpty then mergeMatchesByScore pending (batchMatches find q startIdx names)
      else pending
    mergeAllBatches find q rest (startIdx + names.length) pending'

/-! ## The navigation controller (`treeCollapse` / `treeExpand`) -/

/-- `m.adjustScrollOffset()` from `cursor.go` (two-pass indicator sizing). -/
def adjustScrollOffset (m : model) : model :=
  let vh0 := m.height - 3
  let vh1 := if 0 < m.scrollOffset then vh0 - 1 else vh0
  let vh2 := if m.scrollOffset + vh1 < (m.visibleNodes.length : Int) then vh1 - 1 else vh1
  let viewHeight := if vh2 ≤ 0 then 1 else vh2
  if m.treeIdx < m.scrollOffset then { m with scrollOffset := m.treeIdx }
  else if m.scrollOffset + viewHeight ≤ m.treeIdx then
    { m with scrollOffset := m.treeIdx - viewHeight + 1 }
  else m

/-- `m.treeCollapse()` from `cursor.go`.  The branches that navigate to the
parent *directory* (`filepath.Abs`, `m.listTree()`, `m.handleRootChange`) read
the disk and replace the whole tree; they leave the pure model and are
returned as `none`.  The second in-source search branch
(`m.search != "" && ...` after the unconditional `m.search != ""` return) is
unreachable and omitted. -/
def treeCollapse (find : Str → List Str → List Match) (m : model) : Option model :=
  match selectedTreeNode m with
  | none => some m
  | some np =>
    if ¬m.search.isEmpty then
      let searchStartDirName : Str :=
        match m.treeSearchStartNode with
        | some sp =>
          match entryAt m.treeRoot sp with
          | some e => e.name
          | none => []
        | none => []
      let m1 : model :=
        { m with modeSearch := false, search := [], treeSearchStartNode := none,
                 searchMatchNodes := [] }
      let m2 := rebuildVisibleNodes find m1
      if ¬searchStartDirName.isEmpty then
        match m2.visibleNodes.findIdx? (fun q =>
            match entryAt m2.treeRoot q with
            | some e => e.name == searchStartDirName
            | none => false) with
        | some i => some (adjustScrollOffset { m2 with treeIdx := (i : Int) })
        | none => some { m2 with treeIdx := 0, scrollOffset := 0 }
      else some { m2 with treeIdx := 0, scrollOffset := 0 }
    else if 2 ≤ np.length then
      -- node.parent != nil && node.parent != m.treeRoot
      let m1 : model :=
        match entryAt m.treeRoot np with
        | some e =>
          { m with treeLastChild :=
              ((fullPathAt m.path m.treeRoot np.dropLast).getD [], e.name) :: m.treeLastChild }
        | none => m
      let m2 : model := { m1 with treeRoot := updateAt m1.treeRoot np.dropLast (setExpanded false) }
      let m3 := rebuildVisibleNodes find m2
      match m3.visibleNodes.findIdx? (fun q => q == np.dropLast) with
      | some i => some (adjustScrollOffset { m3 with treeIdx := (i : Int) })
      | none => some m3
    else
      -- at root level: navigate up to the parent directory (disk access)
      none

/-- `m.treeExpand()` from `cursor.go`.  `loadChildren` on an already-loaded
node is a no-op; on an unloaded directory it reads the disk, which leaves the
pure model (`none`). -/
def treeExpand (find : Str → List Str → List Match) (m : model) : Option model :=
  match selectedTreeNode m with
  | none => some m
  | some np =>
    let t := (subtreeAt m.treeRoot np).getD dummyNode
    match t.ent with
    | none => some m
    | some e =>
      if ¬e.isDir then some m
      else if t.expanded then some m
      else if ¬t.loaded then none
      else
        let m1 : model := { m with treeRoot := updateAt m.treeRoot np (setExpanded true) }
        let m2 := rebuildVisibleNodes find m1
        let nodePath := (fullPathAt m.path m.treeRoot np).getD []
        let found? : Option Nat :=
          match lookupStr m2.treeLastChild nodePath with
          | some childName =>
            m2.visibleNodes.findIdx? (fun q =>
              (match entryAt m2.treeRoot q with
               | some ce => ce.name == childName
               | none => false) && q.dropLast == np)
          | none => none
        match found? with
        | some i => some (adjustScrollOffset { m2 with treeIdx := (i : Int) })
        | none =>
          if ¬t.children.isEmpty then
            match m2.visibleNodes.findIdx? (fun q => q == np) with
            | some i =>
              if i + 1 < m2.visibleNodes.length then
                some (adjustScrollOffset { m2 with treeIdx := (i : Int) + 1 })
              else some (adjustScrollOffset m2)
            | none => some (adjustScrollOffset m2)
          else some (adjustScrollOffset m2)

/-! ## Root changes (`handleRootChange`) -/

/-- A node as the index sees it: `fullPath` is the only field
`handleRootChange` reads. -/
structure sNode where
  fullPath : Str
deriving DecidableEq, Repr

/-- The slice of the model that `handleRootChange` and
`startSearchIndexLoader` operate on. -/
structure searchIndexState where
  searchIndexNodes : List sNode
  searchIndexNames : List Str
  searchIndexRoot : Option sNode
  searchPendingMatches : List Match
  searchIndexGeneration : Int
  searchIndexLoading : Bool
deriving Repr

/-- State effects of `m.startSearchIndexLoader(root)` (non-nil root): reset
the index, bump the generation, mark loading, spawn the walker.  The `Bool`
records that a new indexer run was started. -/
def startSearchIndexLoader (m : searchIndexState) (root : sNode) : searchIndexState × Bool :=
  ({ m with searchIndexLoading := true, searchIndexRoot := some root,
            searchIndexNodes := [], searchIndexNames := [], searchPendingMatches := [],
            searchIndexGeneration := m.searchIndexGeneration + 1 }, true)

/-- `m.handleRootChange(newRoot)` from `cursor.go` (non-nil `newRoot`).  The
parallel node/name filtering loop (`for i, node := range m.searchIndexNodes`
indexing `m.searchIndexNames[i]`) is expressed on the zipped slices, which is
identical whenever the two slices have equal length (an invariant of every
append site). -/
def handleRootChange (m : searchIndexState) (newRoot : sNode) : searchIndexState × Bool :=
  match m.searchIndexRoot with
  | none => startSearchIndexLoader m newRoot
  | some oldRoot =>
    if (oldRoot.fullPath ++ [fileSeparator]).isPrefixOf (newRoot.fullPath ++ [fileSeparator]) then
      let kept := (m.searchIndexNodes.zip m.searchIndexNames).filter (fun nn =>
        nn.1.fullPath == newRoot.fullPath ||
          (newRoot.fullPath ++ [fileSeparator]).isPrefixOf (nn.1.fullPath ++ [fileSeparator]))
      ({ m with searchIndexNodes := kept.map Prod.fst, searchIndexNames := kept.map Prod.snd,
                searchIndexRoot := some newRoot, searchPendingMatches := [] }, false)
    else
      -- old root under new root, or unrelated: restart fresh in both cases
      startSearchIndexLoader m newRoot

/-- Specification-side "path `p` lies under root `r`": the path is the root
itself or extends it past a separator. -/
def pathUnder (p r : Str) : Prop := p = r ∨ (r ++ [fileSeparator]) <+: p

instance (p r : Str) : Decidable (pathUnder p r) := by
  unfold pathUnder; infer_instance

/-! ## `selected` (normal-mode selection) -/

/-- Modelled from the spec: the result of `cache.lookupEntryIndex(displayIndex)`
for the `cacheItem` stored under the current path.  The `cacheItem` type lives
outside the provided sources; per the spec it is a display-index-to-entry-index
mapping that can miss, so it is modelled as the abstract outcome of the lookup:
`cacheHit` is `pathCache[m.path]` existing, `entryIndexLookup` the mapping
result. -/
structure listModel where
  entries : List entry
  cacheHit : Bool
  entryIndexLookup : Option Nat
deriving Repr

/-- Outcome of `m.selected()`: an entry, a returned error, or a Go runtime
index-out-of-range fault when `m.entries[idx]` is evaluated with
`idx = len(m.entries)`. -/
inductive selectedResult where
  | ok (e : entry)
  | err
  | outOfRange
deriving DecidableEq, Repr

/-- `m.selected()` from `model.go` / `cursor.go`: cache miss and mapping miss
return errors; the bounds guard is `idx > len(m.entries)`, after which
`m.entries[idx]` is read. -/
def selected (m : listModel) : selectedResult :=
  if ¬m.cacheHit then .err
  else
    match m.entryIndexLookup with
    | none => .err
    | some idx =>
      if m.entries.length < idx then .err
      else
        match m.entries.get? idx with
        | some e => .ok e
        | none => .outOfRange

/-! ## `loadChildren` -/

/-- Outcome of the `os.ReadDir(n.fullPath)` call: failure, or the (already
`newEntry`-converted and `sortEntries`-sorted) entries of the directory. -/
inductive readDirResult where
  | failure
  | success (entries : List entry)
deriving Repr

/-- The fresh child nodes `loadChildren` builds: one `newTreeNode` per entry,
unexpanded, unloaded, childless. -/
def newTreeNodeChildren (entries : List entry) : List treeNode :=
  entries.map (fun e => .node (some e) false false [])

/-- `n.loadChildren()` from `tree.go`: no-op when already loaded or not a
directory; on read failure the error is returned with the node untouched; on
success the children are built and `loaded` is set.  The second component
records whether an error was returned. -/
def loadChildren (n : treeNode) (disk : readDirResult) : treeNode × Bool :=
  if n.loaded || !((n.ent.map entry.isDir).getD false) then (n, false)
  else
    match disk with
    | .failure => (n, true)
    | .success entries =>
      match n with
      | .node ent exp _ _ => (.node ent exp true (newTreeNodeChildren entries), false)

/-! ## Specification-side tree predicates and enumerations -/

/-- Generic shape of the per-child recursions (`flattenChildren`,
`allChildren`, `collectChildren`, `filteredChildren`): apply a
(possibly index-dependent) body to each child and prefix its positions with
the child index. -/
def sections (g : Nat → treeNode → List Pos) : List treeNode → Nat → List Pos
  | [], _ => []
  | c :: rest, k => (g k c).map (k :: ·) ++ sections g rest (k + 1)

/-- The node at the position and all nodes strictly between root and it pass
the hidden-file rule, all of them exist, and all of them below the root carry
entries.  This is the domain from which every match set is drawn: both
matchers enumerate only such nodes. -/
def goodB (modeHidden : Bool) (t : treeNode) : Pos → Bool
  | [] => !skipHidden modeHidden t.ent
  | i :: p =>
    !skipHidden modeHidden t.ent &&
      (match t.children.get? i with
       | some c => c.ent.isSome && goodB modeHidden c p
       | none => false)

/-- The node at the position passes the hidden rule and so does every node on
the path from the root (exclusive) down to it; nodes may lack entries. -/
def hiddenOK (modeHidden : Bool) (t : treeNode) : Pos → Bool
  | [] => !skipHidden modeHidden t.ent
  | i :: p =>
    !skipHidden modeHidden t.ent &&
      (match t.children.get? i with
       | some c => hiddenOK modeHidden c p
       | none => false)

/-- Visibility of a position inside a subtree for `flattenInto`: every node on
the path passes the hidden rule and every strict ancestor is
`expanded && loaded`. -/
def visB (modeHidden : Bool) (t : treeNode) : Pos → Bool
  | [] => !skipHidden modeHidden t.ent
  | i :: p =>
    !skipHidden modeHidden t.ent && t.expanded && t.loaded &&
      (match t.children.get? i with
       | some c => visB modeHidden c p
       | none => false)

/-- Visibility of a position in the whole-model visible list
(`rebuildVisibleNodes` flattens the virtual root's children directly, so the
root's own flags are not consulted and the root itself is never listed). -/
def fromRootVis (modeHidden : Bool) (t : treeNode) : Pos → Bool
  | [] => false
  | j :: rest =>
    match t.children.get? j with
    | some c => visB modeHidden c rest
    | none => false

mutual
/-- The nodes an uncancelled `streamDFS` run emits, in order: DFS preorder,
pruning hidden subtrees, skipping entry-less nodes (the virtual root). -/
def preVisible (modeHidden : Bool) : treeNode → List Pos
  | .node ent _ _ cs =>
    if skipHidden modeHidden ent then []
    else (if ent.isSome then [([] : Pos)] else []) ++ preChildren modeHidden cs 0

def preChildren (modeHidden : Bool) : List treeNode → Nat → List Pos
  | [], _ => []
  | c :: rest, i =>
      (preVisible modeHidden c).map (i :: ·) ++ preChildren modeHidden rest (i + 1)
end

/-! # Theorems -/

/-! ## The incremental merge (claim C2) -/

theorem merge_nil_left (b : List Match) : mergeMatchesByScore [] b = b := by
  cases b <;> simp [mergeMatchesByScore]

theorem merge_nil_right (a : List Match) : mergeMatchesByScore a [] = a := by
  cases a <;> simp [mergeMatchesByScore]

theorem merge_cons_cons_ge {x y : Match} (a b : List Match) (h : y.score ≤ x.score) :
    mergeMatchesByScore (x :: a) (y :: b) = x :: mergeMatchesByScore a (y :: b) := by
  simp [mergeMatchesByScore, ge_iff_le, h]

theorem merge_cons_cons_lt {x y : Match} (a b : List Match) (h : x.score < y.score) :
    mergeMatchesByScore (x :: a) (y :: b) = y :: mergeMatchesByScore (x :: a) b := by
  simp [mergeMatchesByScore, ge_iff_le, not_le.mpr h]

theorem merge_length : ∀ a b : List Match,
    (mergeMatchesByScore a b).length = a.length + b.length := by
  intro a
  induction a with
  | nil => intro b; simp [merge_nil_left]
  | cons x a iha =>
    intro b
    induction b with
    | nil => simp [merge_nil_right]
    | cons y b ihb =>
      rcases le_or_lt y.score x.score with h | h
      · rw [merge_cons_cons_ge a b h]
        simp only [List.length_cons, iha (y :: b), List.length_cons]
        omega
      · rw [merge_cons_cons_lt a b h]
        simp only [List.length_cons, ihb]
        omega

theorem merge_perm : ∀ a b : List Match, (mergeMatchesByScore a b).Perm (a ++ b) := by
  intro a
  induction a with
  | nil => intro b; simp [merge_nil_left]
  | cons x a iha =>
    intro b
    induction b with
    | nil => simp [merge_nil_right]
    | cons y b ihb =>
      rcases le_or_lt y.score x.score with h | h
      · rw [merge_cons_cons_ge a b h]
        exact (iha (y :: b)).cons x
      · rw [merge_cons_cons_lt a b h]
        exact (ihb.cons y).trans List.perm_middle.symm

theorem merge_sublist_left : ∀ a b : List Match, a.Sublist (mergeMatchesByScore a b) := by
  intro a
  induction a with
  | nil => intro b; simp
  | cons x a iha =>
    intro b
    induction b with
    | nil => simp [merge_nil_right]
    | cons y b ihb =>
      rcases le_or_lt y.score x.score with h | h
      · rw [merge_cons_cons_ge a b h]
        exact (iha (y :: b)).cons₂ x
      · rw [merge_cons_cons_lt a b h]
        exact ihb.cons y

theorem merge_sublist_right : ∀ a b : List Match, b.Sublist (mergeMatchesByScore a b) := by
  intro a
  induction a with
  | nil => intro b; simp [merge_nil_left]
  | cons x a iha =>
    intro b
    induction b with
    | nil => simp
    | cons y b ihb =>
      rcases le_or_lt y.score x.score with h | h
      · rw [merge_cons_cons_ge a b h]
        exact (iha (y :: b)).cons x
      · rw [merge_cons_cons_lt a b h]
        exact ihb.cons₂ y

theorem merge_mem {u : Match} (a b : List Match) (h : u ∈ mergeMatchesByScore a b) :
    u ∈ a ∨ u ∈ b := by
  have := (merge_perm a b).mem_iff.mp h
  simpa using this

theorem merge_sorted : ∀ a b : List Match, List.Sorted scoreGE a → List.Sorted scoreGE b →
    List.Sorted scoreGE (mergeMatchesByScore a b) := by
  intro a
  induction a with
  | nil => intro b _ hb; simpa [merge_nil_left] using hb
  | cons x a iha =>
    intro b
    induction b with
    | nil => intro ha _; simpa [merge_nil_right] using ha
    | cons y b ihb =>
      intro ha hb
      rw [List.sorted_cons] at ha hb
      rcases le_or_lt y.score x.score with h | h
      · rw [merge_cons_cons_ge a b h, List.sorted_cons]
        refine ⟨?_, iha (y :: b) ha.2 (List.sorted_cons.mpr hb)⟩
        intro u hu
        rcases merge_mem a (y :: b) hu with hua | hub
        · exact ha.1 u hua
        · rcases List.mem_cons.mp hub with rfl | hub'
          · exact h
          · exact le_trans (hb.1 u hub') h
      · rw [merge_cons_cons_lt a b h, List.sorted_cons]
        refine ⟨?_, ihb (List.sorted_cons.mpr ha) hb.2⟩
        intro u hu
        rcases merge_mem (x :: a) b hu with hua | hub
        · rcases List.mem_cons.mp hua with rfl | hua'
          · exact le_of_lt h
          · exact le_trans (ha.1 u hua') (le_of_lt h)
        · exact hb.1 u hub

theorem merge_filter_score (s : Int) :
    ∀ a b : List Match, List.Sorted scoreGE a → List.Sorted scoreGE b →
    (mergeMatchesByScore a b).filter (fun u => decide (u.score = s)) =
      a.filter (fun u => decide (u.score = s)) ++ b.filter (fun u => decide (u.score = s)) := by
  intro a
  induction a with
  | nil => intro b _ _; simp [merge_nil_left]
  | cons x a iha =>
    intro b
    induction b with
    | nil => intro _ _; simp [merge_nil_right]
    | cons y b ihb =>
      intro ha hb
      rw [List.sorted_cons] at ha hb
      rcases le_or_lt y.score x.score with h | h
      · rw [merge_cons_cons_ge a b h, List.filter_cons,
          iha (y :: b) ha.2 (List.sorted_cons.mpr hb)]
        by_cases hxs : x.score = s <;> simp [List.filter_cons, hxs]
      · rw [merge_cons_cons_lt a b h, List.filter_cons,
          ihb (List.sorted_cons.mpr ha) hb.2]
        by_cases hys : y.score = s
        · have hnil : (x :: a).filter (fun u => decide (u.score = s)) = [] := by
            rw [List.filter_eq_nil_iff]
            intro u hu
            rcases List.mem_cons.mp hu with rfl | hu'
            · simp only [decide_eq_true_eq]; omega
            · have := ha.1 u hu'
              unfold scoreGE at this
              simp only [decide_eq_true_eq]
              omega
          simp [hys, hnil]
        · simp [hys]

/-- C2: for match lists `a` and `b` each sorted descending by score,
`mergeMatchesByScore(a, b)` is sorted descending by score, has length
`len(a)+len(b)`, is multiset-equal to the union of `a` and `b`, preserves each
input's relative order (both are sublists of the output), and breaks score
ties by placing all of `a`'s elements of a given score before all of `b`'s
elements of the same score. -/
theorem c2_mergeMatchesByScore (a b : List Match)
    (ha : List.Sorted scoreGE a) (hb : List.Sorted scoreGE b) :
    List.Sorted scoreGE (mergeMatchesByScore a b) ∧
    (mergeMatchesByScore a b).length = a.length + b.length ∧
    (mergeMatchesByScore a b).Perm (a ++ b) ∧
    a.Sublist (mergeMatchesByScore a b) ∧
    b.Sublist (mergeMatchesByScore a b) ∧
    (∀ s : Int, (mergeMatchesByScore a b).filter (fun u => decide (u.score = s)) =
      a.filter (fun u => decide (u.score = s)) ++ b.filter (fun u => decide (u.score = s))) :=
  ⟨merge_sorted a b ha hb, merge_length a b, merge_perm a b,
   merge_sublist_left a b, merge_sublist_right a b,
   fun s => merge_filter_score s a b ha hb⟩

/-! ## Root-change index reuse (claim C5) -/

theorem prefix_snoc_iff {α : Type} (r p : List α) (c : α) :
    (r ++ [c]) <+: (p ++ [c]) ↔ p = r ∨ (r ++ [c]) <+: p := by
  constructor
  · intro h
    have hlen : (r ++ [c]).length ≤ (p ++ [c]).length := h.length_le
    simp only [List.length_append, List.length_cons, List.length_nil] at hlen
    rcases Nat.lt_or_ge r.length p.length with hlt | hge
    · right
      have htake := List.prefix_iff_eq_take.mp h
      have : (p ++ [c]).take (r ++ [c]).length = p.take (r ++ [c]).length := by
        apply List.take_append_of_le_length
        simp only [List.length_append, List.length_cons, List.length_nil]
        omega
      rw [this] at htake
      exact htake ▸ List.take_prefix _ p
    · left
      have heq : (r ++ [c]).length = (p ++ [c]).length := by
        simp only [List.length_append, List.length_cons, List.length_nil]
        omega
      have := h.eq_of_length heq
      exact ((List.append_left_inj [c]).mp this).symm
  · rintro (rfl | h)
    · exact List.prefix_refl _
    · exact h.trans (p.prefix_append [c])

theorem zip_filter_fst {α β : Type} (p : α → Bool) :
    ∀ (l1 : List α) (l2 : List β), l1.length = l2.length →
    ((l1.zip l2).filter (fun ab => p ab.1)).map Prod.fst = l1.filter p := by
  intro l1
  induction l1 with
  | nil => intro l2 _; simp
  | cons a l1 ih =>
    intro l2 hlen
    cases l2 with
    | nil => simp at hlen
    | cons b l2 =>
      simp only [List.length_cons] at hlen
      simp only [List.zip_cons_cons, List.filter_cons]
      by_cases hp : p a <;> simp [hp, ih l2 (by omega)]

/-- C5: when the navigation root changes from the indexed root `R` to a strict
descendant `R'`, `handleRootChange` keeps exactly the subsequence of the old
index whose nodes' paths lie under `R'` (in order, with the parallel names
array filtered in lock-step), and starts no new indexer run (the generation
and loading flag are untouched and the returned command is nil). -/
theorem c5_handleRootChange (m : searchIndexState) (R Rp : sNode)
    (hroot : m.searchIndexRoot = some R)
    (hdesc : (R.fullPath ++ [fileSeparator]) <+: Rp.fullPath)
    (hlen : m.searchIndexNodes.length = m.searchIndexNames.length) :
    (handleRootChange m Rp).2 = false ∧
    (handleRootChange m Rp).1.searchIndexGeneration = m.searchIndexGeneration ∧
    (handleRootChange m Rp).1.searchIndexLoading = m.searchIndexLoading ∧
    (handleRootChange m Rp).1.searchIndexNodes
        = m.searchIndexNodes.filter (fun n => decide (pathUnder n.fullPath Rp.fullPath)) ∧
    ((handleRootChange m Rp).1.searchIndexNodes.zip (handleRootChange m Rp).1.searchIndexNames)
        = (m.searchIndexNodes.zip m.searchIndexNames).filter
            (fun nn => decide (pathUnder nn.1.fullPath Rp.fullPath)) ∧
    (handleRootChange m Rp).1.searchIndexRoot = some Rp := by
  have hcond : (R.fullPath ++ [fileSeparator]).isPrefixOf
      (Rp.fullPath ++ [fileSeparator]) = true := by
    rw [List.isPrefixOf_iff_prefix]
    exact hdesc.trans (Rp.fullPath.prefix_append [fileSeparator])
  have hkeep : ∀ q : Str,
      (q == Rp.fullPath ||
        (Rp.fullPath ++ [fileSeparator]).isPrefixOf (q ++ [fileSeparator]))
      = decide (pathUnder q Rp.fullPath) := by
    intro q
    rw [Bool.eq_iff_iff]
    simp only [Bool.or_eq_true, beq_iff_eq, List.isPrefixOf_iff_prefix, prefix_snoc_iff,
      decide_eq_true_eq, pathUnder]
    tauto
  have hfilter :
      (m.searchIndexNodes.zip m.searchIndexNames).filter (fun nn =>
        nn.1.fullPath == Rp.fullPath ||
          (Rp.fullPath ++ [fileSeparator]).isPrefixOf (nn.1.fullPath ++ [fileSeparator]))
      = (m.searchIndexNodes.zip m.searchIndexNames).filter
          (fun nn => decide (pathUnder nn.1.fullPath Rp.fullPath)) := by
    apply List.filter_congr
    intro nn _
    exact hkeep nn.1.fullPath
  have hmain : handleRootChange m Rp =
      ({ m with
          searchIndexNodes :=
            ((m.searchIndexNodes.zip m.searchIndexNames).filter
              (fun nn => decide (pathUnder nn.1.fullPath Rp.fullPath))).map Prod.fst,
          searchIndexNames :=
            ((m.searchIndexNodes.zip m.searchIndexNames).filter
              (fun nn => decide (pathUnder nn.1.fullPath Rp.fullPath))).map Prod.snd,
          searchIndexRoot := some Rp, searchPendingMatches := [] }, false) := by
    unfold handleRootChange
    rw [hroot]
    simp only [hcond, if_true, hfilter]
  rw [hmain]
  refine ⟨rfl, rfl, rfl, ?_, ?_, rfl⟩
  · show ((m.searchIndexNodes.zip m.searchIndexNames).filter
        (fun nn => decide (pathUnder nn.1.fullPath Rp.fullPath))).map Prod.fst
      = m.searchIndexNodes.filter (fun n => decide (pathUnder n.fullPath Rp.fullPath))
    exact zip_filter_fst (fun n => decide (pathUnder n.fullPath Rp.fullPath))
      m.searchIndexNodes m.searchIndexNames hlen
  · show (((m.searchIndexNodes.zip m.searchIndexNames).filter
        (fun nn => decide (pathUnder nn.1.fullPath Rp.fullPath))).map Prod.fst).zip
        (((m.searchIndexNodes.zip m.searchIndexNames).filter
          (fun nn => decide (pathUnder nn.1.fullPath Rp.fullPath))).map Prod.snd)
      = (m.searchIndexNodes.zip m.searchIndexNames).filter
          (fun nn => decide (pathUnder nn.1.fullPath Rp.fullPath))
    exact Eq.symm (List.zip_of_prod rfl rfl)

/-- Concrete state for the C5 witness: index over root `/a` with nodes
`/a/b`, `/a/c`, `/a/b/d`, new root `/a/b`. -/
def c5state : searchIndexState :=
  { searchIndexNodes := [⟨['/', 'a', '/', 'b']⟩, ⟨['/', 'a', '/', 'c']⟩,
      ⟨['/', 'a', '/', 'b', '/', 'd']⟩],
    searchIndexNames := [['b'], ['c'], ['d']],
    searchIndexRoot := some ⟨['/', 'a']⟩,
    searchPendingMatches := [⟨0, 3⟩],
    searchIndexGeneration := 7,
    searchIndexLoading := true }

def c5newRoot : sNode := ⟨['/', 'a', '/', 'b']⟩

/-- Witness for C5 at a concrete index and root pair. -/
theorem c5_handleRootChange_witness :
    c5state.searchIndexRoot = some ⟨['/', 'a']⟩ ∧
    ((⟨['/', 'a']⟩ : sNode).fullPath ++ [fileSeparator]) <+: c5newRoot.fullPath ∧
    ((handleRootChange c5state c5newRoot).2 = false ∧
     (handleRootChange c5state c5newRoot).1.searchIndexGeneration
        = c5state.searchIndexGeneration ∧
     (handleRootChange c5state c5newRoot).1.searchIndexLoading
        = c5state.searchIndexLoading ∧
     (handleRootChange c5state c5newRoot).1.searchIndexNodes
        = c5state.searchIndexNodes.filter
            (fun n => decide (pathUnder n.fullPath c5newRoot.fullPath)) ∧
     ((handleRootChange c5state c5newRoot).1.searchIndexNodes.zip
        (handleRootChange c5state c5newRoot).1.searchIndexNames)
        = (c5state.searchIndexNodes.zip c5state.searchIndexNames).filter
            (fun nn => decide (pathUnder nn.1.fullPath c5newRoot.fullPath)) ∧
     (handleRootChange c5state c5newRoot).1.searchIndexRoot = some c5newRoot) :=
  ⟨by decide, by decide,
   c5_handleRootChange c5state ⟨['/', 'a']⟩ c5newRoot (by decide) (by decide) (by decide)⟩

/-! ## `selected` bounds (claim C8)

The bounds guard in `selected` is `idx > len(m.entries)` where it should be
`idx >= len(m.entries)`: when the cached mapping returns exactly
`idx = len(m.entries)` the guard passes and `m.entries[idx]` faults.  The
claim (and spec §7(c)) is the evident intent of the guard; the code is off by
one. -/

/-- C8 (refuting evaluation): with an empty `entries` slice and a cached
mapping returning entry index `0`, the guard `0 > 0` passes and
`m.entries[0]` is an index-out-of-range fault rather than a returned error;
every strictly larger stale index is caught.  So `selected` can index the
entries slice out of range, contradicting the claim. -/
theorem c8_selected_indexOutOfRange :
    selected { entries := [], cacheHit := true, entryIndexLookup := some 0 } =
        .outOfRange ∧
    selected { entries := [], cacheHit := true, entryIndexLookup := some 1 } = .err ∧
    selected { entries := [], cacheHit := false, entryIndexLookup := some 0 } = .err ∧
    selected { entries := [], cacheHit := true, entryIndexLookup := none } = .err := by
  refine ⟨?_, ?_, ?_, ?_⟩ <;> rfl

/-! ## `loadChildren` (claim C9) -/

/-- C9: `loadChildren` is a no-op returning nil when the node is loaded or not
a directory; on a failed directory read it returns the error with the node
(children, flags, entry) completely unchanged; on success it populates the
children, sets `loaded` and touches nothing else, after which any further
call is a no-op. -/
theorem c9_loadChildren (n : treeNode) (e : entry) (hent : n.ent = some e) :
    (n.loaded = true ∨ e.isDir = false → ∀ d, loadChildren n d = (n, false)) ∧
    (n.loaded = false → e.isDir = true →
      loadChildren n .failure = (n, true) ∧
      (∀ es : List entry,
        (loadChildren n (.success es)).1.children = newTreeNodeChildren es ∧
        (loadChildren n (.success es)).1.loaded = true ∧
        (loadChildren n (.success es)).1.ent = n.ent ∧
        (loadChildren n (.success es)).1.expanded = n.expanded ∧
        (loadChildren n (.success es)).2 = false ∧
        (∀ d', loadChildren (loadChildren n (.success es)).1 d'
          = ((loadChildren n (.success es)).1, false)))) := by
  cases n with
  | node ent exp ld cs =>
    simp only [treeNode.ent] at hent
    subst hent
    constructor
    · rintro (hld | hdir) d
      · simp only [treeNode.loaded] at hld
        simp [loadChildren, treeNode.loaded, hld]
      · simp [loadChildren, treeNode.loaded, treeNode.ent, hdir]
    · intro hld hdir
      simp only [treeNode.loaded] at hld
      refine ⟨?_, ?_⟩
      · simp [loadChildren, treeNode.loaded, treeNode.ent, hld, hdir]
      · intro es
        have hload : loadChildren (treeNode.node (some e) exp ld cs) (.success es)
            = (treeNode.node (some e) exp true (newTreeNodeChildren es), false) := by
          simp [loadChildren, treeNode.loaded, treeNode.ent, hld, hdir]
        rw [hload]
        refine ⟨rfl, rfl, rfl, rfl, rfl, ?_⟩
        intro d'
        simp [loadChildren, treeNode.loaded]

/-- Witness for C9 at a concrete unloaded directory node. -/
theorem c9_loadChildren_witness :
    ((treeNode.node (some ⟨['d'], true, false⟩) false false []).ent
        = some ⟨['d'], true, false⟩) ∧
    ((treeNode.node (some ⟨['d'], true, false⟩) false false []).loaded = true ∨
        (⟨['d'], true, false⟩ : entry).isDir = false →
      ∀ d, loadChildren (treeNode.node (some ⟨['d'], true, false⟩) false false []) d
        = (treeNode.node (some ⟨['d'], true, false⟩) false false [], false)) ∧
    ((treeNode.node (some ⟨['d'], true, false⟩) false false []).loaded = false →
      (⟨['d'], true, false⟩ : entry).isDir = true →
      loadChildren (treeNode.node (some ⟨['d'], true, false⟩) false false []) .failure
        = (treeNode.node (some ⟨['d'], true, false⟩) false false [], true) ∧
      (∀ es : List entry,
        (loadChildren (treeNode.node (some ⟨['d'], true, false⟩) false false [])
            (.success es)).1.children = newTreeNodeChildren es ∧
        (loadChildren (treeNode.node (some ⟨['d'], true, false⟩) false false [])
            (.success es)).1.loaded = true ∧
        (loadChildren (treeNode.node (some ⟨['d'], true, false⟩) false false [])
            (.success es)).1.ent
          = (treeNode.node (some ⟨['d'], true, false⟩) false false []).ent ∧
        (loadChildren (treeNode.node (some ⟨['d'], true, false⟩) false false [])
            (.success es)).1.expanded
          = (treeNode.node (some ⟨['d'], true, false⟩) false false []).expanded ∧
        (loadChildren (treeNode.node (some ⟨['d'], true, false⟩) false false [])
            (.success es)).2 = false ∧
        (∀ d', loadChildren (loadChildren
            (treeNode.node (some ⟨['d'], true, false⟩) false false [])
            (.success es)).1 d'
          = ((loadChildren (treeNode.node (some ⟨['d'], true, false⟩) false false [])
              (.success es)).1, false)))) :=
  ⟨rfl,
   (c9_loadChildren (treeNode.node (some ⟨['d'], true, false⟩) false false [])
     ⟨['d'], true, false⟩ rfl).1,
   (c9_loadChildren (treeNode.node (some ⟨['d'], true, false⟩) false false [])
     ⟨['d'], true, false⟩ rfl).2⟩

/-! ## Cursor clamping across rebuilds (claim C7) -/

theorem clampTreeIdx_bounds (idx : Int) (n : Nat) (h : 0 ≤ idx) :
    (0 < n → 0 ≤ clampTreeIdx idx n ∧ clampTreeIdx idx n < n) ∧
    (n = 0 → clampTreeIdx idx n = 0) := by
  unfold clampTreeIdx
  split <;> constructor <;> intro <;> omega

/-- The cursor invariant the specification states for the visible list. -/
def cursorInv (m : model) : Prop :=
  (m.visibleNodes = [] → m.treeIdx = 0) ∧
  (m.visibleNodes ≠ [] → 0 ≤ m.treeIdx ∧ m.treeIdx < m.visibleNodes.length)

theorem cursorInv_of_clamp (m' : model) (idx : Int) (h : 0 ≤ idx)
    (hidx : m'.treeIdx = clampTreeIdx idx m'.visibleNodes.length) : cursorInv m' := by
  have hb := clampTreeIdx_bounds idx m'.visibleNodes.length h
  constructor
  · intro hvis
    rw [hidx]
    exact hb.2 (by simp [hvis])
  · intro hvis
    rw [hidx]
    exact hb.1 (by cases hv : m'.visibleNodes with
      | nil => exact absurd hv hvis
      | cons a l => simp [hv])

theorem cursorInv_of_zero (m' : model) (hvis : m'.visibleNodes = [])
    (hidx : m'.treeIdx = 0) : cursorInv m' :=
  ⟨fun _ => hidx, fun hne => absurd hvis hne⟩

theorem rebuildVisibleNodesFromMatches_cursorInv (m : model) (h : 0 ≤ m.treeIdx)
    (ms : List Match) : cursorInv (rebuildVisibleNodesFromMatches m ms) := by
  unfold rebuildVisibleNodesFromMatches
  split
  · exact cursorInv_of_clamp _ m.treeIdx h rfl
  · exact cursorInv_of_clamp _ m.treeIdx h rfl

theorem rebuildVisibleNodesFromIndex_cursorInv (find : Str → List Str → List Match)
    (m : model) (h : 0 ≤ m.treeIdx) : cursorInv (rebuildVisibleNodesFromIndex find m) := by
  unfold rebuildVisibleNodesFromIndex
  split
  · exact cursorInv_of_clamp _ m.treeIdx h rfl
  · exact rebuildVisibleNodesFromMatches_cursorInv m h _

theorem rebuildVisibleNodesWithSearch_cursorInv (find : Str → List Str → List Match)
    (m : model) (h : 0 ≤ m.treeIdx) : cursorInv (rebuildVisibleNodesWithSearch find m) := by
  unfold rebuildVisibleNodesWithSearch
  split
  · exact cursorInv_of_clamp _ m.treeIdx h rfl
  · split
    · exact rebuildVisibleNodesFromIndex_cursorInv find m h
    · dsimp only
      split <;> split <;>
        first
          | exact cursorInv_of_zero _ rfl rfl
          | (split
             · exact cursorInv_of_zero _ rfl rfl
             · exact cursorInv_of_clamp _ m.treeIdx h rfl)

theorem rebuildVisibleNodes_cursorInv (find : Str → List Str → List Match)
    (m : model) (h : 0 ≤ m.treeIdx) : cursorInv (rebuildVisibleNodes find m) := by
  unfold rebuildVisibleNodes
  split
  · exact rebuildVisibleNodesWithSearch_cursorInv find m h
  · exact cursorInv_of_clamp _ m.treeIdx h rfl

/-- C7 (amended: the cursor must be nonnegative before the rebuild): after any
of the visible-list rebuilds, `0 ≤ treeIdx < len(visibleNodes)` whenever the
list is non-empty and `treeIdx = 0` whenever it is empty. -/
theorem c7_rebuild_cursor (find : Str → List Str → List Match) (m : model)
    (h : 0 ≤ m.treeIdx) :
    cursorInv (rebuildVisibleNodes find m) ∧
    cursorInv (rebuildVisibleNodesWithSearch find m) ∧
    cursorInv (rebuildVisibleNodesFromIndex find m) ∧
    (∀ ms : List Match, cursorInv (rebuildVisibleNodesFromMatches m ms)) :=
  ⟨rebuildVisibleNodes_cursorInv find m h,
   rebuildVisibleNodesWithSearch_cursorInv find m h,
   rebuildVisibleNodesFromIndex_cursorInv find m h,
   fun ms => rebuildVisibleNodesFromMatches_cursorInv m h ms⟩

/-- The trivial matcher used to instantiate `find` in concrete states. -/
def find0 : Str → List Str → List Match := fun _ _ => []

/-- `m.treeMoveUp()` from `cursor.go`: decrement and wrap.  On an empty
visible list the wrap target `len(m.visibleNodes) - 1` is `-1`. -/
def treeMoveUp (m : model) : model :=
  let idx := m.treeIdx - 1
  let idx := if idx < 0 then (m.visibleNodes.length : Int) - 1 else idx
  adjustScrollOffset { m with treeIdx := idx }

/-- A state reachable in tree mode: hidden-files display on, one child, but
the visible list still empty (it was built while hidden files were off) and
the cursor at the top. -/
def c7model : model :=
  { path := [], search := [], modeSearch := false, modeTree := true, modeHidden := true,
    height := 20, treeRoot := .node none true true [.node (some ⟨['a'], false, true⟩) false false []],
    visibleNodes := [], treeIdx := 0, scrollOffset := 0, displayed := 0,
    treeLastChild := [], treeSearchStartNode := none, searchMatchNodes := [],
    searchIndexNodes := [], searchIndexNames := [], searchIndexLoading := false,
    searchIndexChanOpen := false, searchQueryChanOpen := false,
    searchIndexGeneration := 0, searchWorkerGeneration := 0, searchPendingMatches := [] }

/-- C7 counterexample to the claim as stated: `treeMoveUp` on an empty visible
list leaves `treeIdx = -1`; the next `rebuildVisibleNodes` produces a
non-empty visible list but keeps the negative cursor (the clamp only handles
`treeIdx >= len`), so `0 ≤ treeIdx` fails after the rebuild. -/
theorem c7_counterexample :
    (treeMoveUp c7model).treeIdx = -1 ∧
    (rebuildVisibleNodes find0 (treeMoveUp c7model)).visibleNodes ≠ [] ∧
    (rebuildVisibleNodes find0 (treeMoveUp c7model)).treeIdx < 0 := by
  refine ⟨by decide, by decide, by decide⟩

/-- Witness for C7 (amended) at a concrete state with a nonnegative cursor. -/
theorem c7_rebuild_cursor_witness :
    (0 ≤ c7model.treeIdx) ∧
    (cursorInv (rebuildVisibleNodes find0 c7model) ∧
     cursorInv (rebuildVisibleNodesWithSearch find0 c7model) ∧
     cursorInv (rebuildVisibleNodesFromIndex find0 c7model) ∧
     (∀ ms : List Match, cursorInv (rebuildVisibleNodesFromMatches c7model ms))) :=
  ⟨by decide, c7_rebuild_cursor find0 c7model (by decide)⟩

/-! ## Stale-generation discarding (claim C1) -/

theorem dispatchMsg_staleBatch (find : Str → List Str → List Match) (m : model)
    (ns : List Pos) (dn : Bool) (g : Int) (hg : g ≠ m.searchIndexGeneration) :
    dispatchMsg find m (.searchIndexBatch ns dn g) = m := by
  unfold dispatchMsg
  simp [hg]

theorem dispatchMsg_staleResult (find : Str → List Str → List Match) (m : model)
    (q : Str) (ms : List Match) (g : Int)
    (hg : g ≠ m.searchWorkerGeneration ∨ q ≠ m.search) :
    dispatchMsg find m (.fuzzySearchResult q ms g) = m := by
  unfold dispatchMsg
  rcases hg with hg | hq
  · simp [hg]
  · by_cases hgen : g = m.searchWorkerGeneration <;> simp [hgen, hq]

theorem dispatchMsgs_take_succ (find : Str → List Str → List Match) (m : model)
    (msgs : List teaMsg) (i : Nat) (hi : i < msgs.length) :
    dispatchMsgs find m (msgs.take (i + 1))
      = dispatchMsg find (dispatchMsgs find m (msgs.take i)) (msgs.get ⟨i, hi⟩) := by
  unfold dispatchMsgs
  rw [show msgs.take (i+1) = msgs.take i ++ [msgs.get ⟨i, hi⟩] from by
    simp [List.take_succ, List.get?_eq_get hi]]
  rw [List.foldl_append]
  rfl

/-- C1: in any sequence of asynchronous messages, a `searchIndexBatchMsg`
whose generation differs from the current `searchIndexGeneration` leaves the
index (`searchIndexNodes`/`searchIndexNames`) and the pending match set
untouched (in fact the whole model), and a `fuzzySearchResultMsg` whose
generation differs from `searchWorkerGeneration` or whose query differs from
the current search string leaves the visible node list and the match state
untouched. -/
theorem c1_staleMessages (find : Str → List Str → List Match) (m : model)
    (msgs : List teaMsg) (i : Nat) (hi : i < msgs.length) :
    (∀ ns dn g, msgs.get ⟨i, hi⟩ = .searchIndexBatch ns dn g →
      g ≠ (dispatchMsgs find m (msgs.take i)).searchIndexGeneration →
      (dispatchMsgs find m (msgs.take (i+1))).searchIndexNodes
          = (dispatchMsgs find m (msgs.take i)).searchIndexNodes ∧
      (dispatchMsgs find m (msgs.take (i+1))).searchIndexNames
          = (dispatchMsgs find m (msgs.take i)).searchIndexNames ∧
      (dispatchMsgs find m (msgs.take (i+1))).searchPendingMatches
          = (dispatchMsgs find m (msgs.take i)).searchPendingMatches) ∧
    (∀ q ms g, msgs.get ⟨i, hi⟩ = .fuzzySearchResult q ms g →
      (g ≠ (dispatchMsgs find m (msgs.take i)).searchWorkerGeneration ∨
        q ≠ (dispatchMsgs find m (msgs.take i)).search) →
      (dispatchMsgs find m (msgs.take (i+1))).visibleNodes
          = (dispatchMsgs find m (msgs.take i)).visibleNodes ∧
      (dispatchMsgs find m (msgs.take (i+1))).searchMatchNodes
          = (dispatchMsgs find m (msgs.take i)).searchMatchNodes ∧
      (dispatchMsgs find m (msgs.take (i+1))).searchPendingMatches
          = (dispatchMsgs find m (msgs.take i)).searchPendingMatches ∧
      (dispatchMsgs find m (msgs.take (i+1))).displayed
          = (dispatchMsgs find m (msgs.take i)).displayed) := by
  constructor
  · intro ns dn g hmsg hg
    rw [dispatchMsgs_take_succ find m msgs i hi, hmsg,
      dispatchMsg_staleBatch find _ ns dn g hg]
    exact ⟨rfl, rfl, rfl⟩
  · intro q ms g hmsg hg
    rw [dispatchMsgs_take_succ find m msgs i hi, hmsg,
      dispatchMsg_staleResult find _ q ms g hg]
    exact ⟨rfl, rfl, rfl, rfl⟩

/-- Concrete state for the C1 witness: both generations nonzero, a live
query. -/
def c1model : model :=
  { c7model with search := ['a'], searchIndexGeneration := 5, searchWorkerGeneration := 3,
                 searchIndexNodes := [[0]], searchIndexNames := [['a']],
                 searchPendingMatches := [⟨0, 1⟩], visibleNodes := [[0]], displayed := 1 }

/-- The concrete stale message sequence for the C1 witness: a batch tagged
with a superseded indexer generation, then a result tagged with a superseded
worker generation and an outdated query. -/
def c1msgs : List teaMsg :=
  [.searchIndexBatch [[0], [1]] false 4, .fuzzySearchResult ['a', 'b'] [⟨0, 2⟩] 2]

/-- Witness for C1: both stale-message cases at concrete inputs. -/
theorem c1_staleMessages_witness :
    (c1msgs.get ⟨0, by decide⟩ = .searchIndexBatch [[0], [1]] false 4 ∧
     (4 : Int) ≠ (dispatchMsgs find0 c1model (c1msgs.take 0)).searchIndexGeneration ∧
     (dispatchMsgs find0 c1model (c1msgs.take 1)).searchIndexNodes
        = (dispatchMsgs find0 c1model (c1msgs.take 0)).searchIndexNodes ∧
     (dispatchMsgs find0 c1model (c1msgs.take 1)).searchIndexNames
        = (dispatchMsgs find0 c1model (c1msgs.take 0)).searchIndexNames ∧
     (dispatchMsgs find0 c1model (c1msgs.take 1)).searchPendingMatches
        = (dispatchMsgs find0 c1model (c1msgs.take 0)).searchPendingMatches) ∧
    (c1msgs.get ⟨1, by decide⟩ = .fuzzySearchResult ['a', 'b'] [⟨0, 2⟩] 2 ∧
     ((2 : Int) ≠ (dispatchMsgs find0 c1model (c1msgs.take 1)).searchWorkerGeneration ∨
       ['a', 'b'] ≠ (dispatchMsgs find0 c1model (c1msgs.take 1)).search) ∧
     (dispatchMsgs find0 c1model (c1msgs.take 2)).visibleNodes
        = (dispatchMsgs find0 c1model (c1msgs.take 1)).visibleNodes ∧
     (dispatchMsgs find0 c1model (c1msgs.take 2)).searchMatchNodes
        = (dispatchMsgs find0 c1model (c1msgs.take 1)).searchMatchNodes ∧
     (dispatchMsgs find0 c1model (c1msgs.take 2)).searchPendingMatches
        = (dispatchMsgs find0 c1model (c1msgs.take 1)).searchPendingMatches ∧
     (dispatchMsgs find0 c1model (c1msgs.take 2)).displayed
        = (dispatchMsgs find0 c1model (c1msgs.take 1)).displayed) := by
  have h1 := (c1_staleMessages find0 c1model c1msgs 0 (by decide)).1
    [[0], [1]] false 4 (by decide) (by decide)
  have h2 := (c1_staleMessages find0 c1model c1msgs 1 (by decide)).2
    ['a', 'b'] [⟨0, 2⟩] 2 (by decide) (Or.inl (by decide))
  exact ⟨⟨by decide, by decide, h1.1, h1.2.1, h1.2.2⟩,
         ⟨by decide, Or.inl (by decide), h2.1, h2.2.1, h2.2.2.1, h2.2.2.2⟩⟩

/-! ## The incremental pending-match invariant (claim C3) -/

theorem isEmpty_map {A B : Type} (f : A → B) (l : List A) :
    (l.map f).isEmpty = l.isEmpty := by
  cases l <;> simp

theorem rebuildVisibleNodesFromMatches_preserves (m : model) (ms : List Match) :
    (rebuildVisibleNodesFromMatches m ms).search = m.search ∧
    (rebuildVisibleNodesFromMatches m ms).treeRoot = m.treeRoot ∧
    (rebuildVisibleNodesFromMatches m ms).searchIndexGeneration = m.searchIndexGeneration ∧
    (rebuildVisibleNodesFromMatches m ms).searchIndexNodes = m.searchIndexNodes ∧
    (rebuildVisibleNodesFromMatches m ms).searchIndexNames = m.searchIndexNames ∧
    (rebuildVisibleNodesFromMatches m ms).searchPendingMatches = m.searchPendingMatches := by
  unfold rebuildVisibleNodesFromMatches
  split <;> exact ⟨rfl, rfl, rfl, rfl, rfl, rfl⟩

theorem dispatchMsg_batch_step (find : Str → List Str → List Match) (m : model)
    (ns : List Pos) (hs : m.search.isEmpty = false)
    (hlen : m.searchIndexNames.length = m.searchIndexNodes.length) :
    (dispatchMsg find m (.searchIndexBatch ns false m.searchIndexGeneration)).search
        = m.search ∧
    (dispatchMsg find m (.searchIndexBatch ns false m.searchIndexGeneration)).treeRoot
        = m.treeRoot ∧
    (dispatchMsg find m (.searchIndexBatch ns false
        m.searchIndexGeneration)).searchIndexGeneration = m.searchIndexGeneration ∧
    (dispatchMsg find m (.searchIndexBatch ns false
        m.searchIndexGeneration)).searchIndexNodes = m.searchIndexNodes ++ ns ∧
    (dispatchMsg find m (.searchIndexBatch ns false
        m.searchIndexGeneration)).searchIndexNames
        = m.searchIndexNames ++ ns.map (nodeNameAt m.treeRoot) ∧
    (dispatchMsg find m (.searchIndexBatch ns false
        m.searchIndexGeneration)).searchPendingMatches
        = (if ns.isEmpty then m.searchPendingMatches
           else mergeMatchesByScore m.searchPendingMatches
             (batchMatches find m.search m.searchIndexNodes.length
               (ns.map (nodeNameAt m.treeRoot)))) := by
  have hgen : ¬(m.searchIndexGeneration ≠ m.searchIndexGeneration) := by simp
  have hs' : m.search ≠ [] := fun h => by simp [h] at hs
  unfold dispatchMsg
  dsimp only
  rw [if_neg hgen]
  by_cases hns : ns = []
  · subst hns
    rw [if_pos (show ¬false = true from by simp)]
    rw [if_neg (show ¬(¬List.isEmpty m.search = true ∧ ¬List.isEmpty ([] : List Pos) = true)
      from by simp)]
    simp
  · have hnse : ¬ns.isEmpty = true := by simpa [List.isEmpty_iff] using hns
    rw [if_pos (show ¬false = true from by simp)]
    rw [if_pos (show ¬List.isEmpty m.search = true ∧ ¬List.isEmpty ns = true
      from ⟨by simp [hs'], hnse⟩)]
    have hdrop : (m.searchIndexNames ++ ns.map (nodeNameAt m.treeRoot)).drop
        m.searchIndexNodes.length = ns.map (nodeNameAt m.treeRoot) := by
      rw [← hlen]
      exact List.drop_left m.searchIndexNames (ns.map (nodeNameAt m.treeRoot))
    have hpres := rebuildVisibleNodesFromMatches_preserves
      { m with
          searchIndexNodes := m.searchIndexNodes ++ ns,
          searchIndexNames := m.searchIndexNames ++ ns.map (nodeNameAt m.treeRoot),
          searchPendingMatches := mergeMatchesByScore m.searchPendingMatches
            ((find m.search ((m.searchIndexNames ++ ns.map (nodeNameAt m.treeRoot)).drop
                m.searchIndexNodes.length)).map
              (fun mt => { mt with index := mt.index + m.searchIndexNodes.length })) }
      (mergeMatchesByScore m.searchPendingMatches
        ((find m.search ((m.searchIndexNames ++ ns.map (nodeNameAt m.treeRoot)).drop
            m.searchIndexNodes.length)).map
          (fun mt => { mt with index := mt.index + m.searchIndexNodes.length })))
    refine ⟨hpres.1, hpres.2.1, hpres.2.2.1, hpres.2.2.2.1, hpres.2.2.2.2.1, ?_⟩
    rw [hpres.2.2.2.2.2, if_neg hnse, hdrop]
    rfl

/-- C3: starting from any state with a live query, processing any sequence of
current-generation, not-done index batches leaves the pending match set equal
to the running merge of all per-batch match computations: each batch's names
matched in isolation, shifted by the index length observed before that batch
was appended, and merged (by `mergeMatchesByScore`) into the running set.
The index itself accumulates exactly the batches' nodes and names, in order.
Instantiating `bs` with every prefix of the delivered batches gives the
invariant after each batch. -/
theorem c3_pendingMatchInvariant (find : Str → List Str → List Match) (m0 : model)
    (bs : List (List Pos)) (hq : m0.search.isEmpty = false)
    (hlen : m0.searchIndexNames.length = m0.searchIndexNodes.length) :
    (dispatchMsgs find m0 (bs.map
        (fun ns => .searchIndexBatch ns false m0.searchIndexGeneration))).searchPendingMatches
      = mergeAllBatches find m0.search (bs.map (List.map (nodeNameAt m0.treeRoot)))
          m0.searchIndexNodes.length m0.searchPendingMatches ∧
    (dispatchMsgs find m0 (bs.map
        (fun ns => .searchIndexBatch ns false m0.searchIndexGeneration))).searchIndexNodes
      = m0.searchIndexNodes ++ bs.flatten ∧
    (dispatchMsgs find m0 (bs.map
        (fun ns => .searchIndexBatch ns false m0.searchIndexGeneration))).searchIndexNames
      = m0.searchIndexNames ++ (bs.map (List.map (nodeNameAt m0.treeRoot))).flatten ∧
    (dispatchMsgs find m0 (bs.map
        (fun ns => .searchIndexBatch ns false m0.searchIndexGeneration))).search
      = m0.search := by
  induction bs generalizing m0 with
  | nil => simp [dispatchMsgs, mergeAllBatches]
  | cons ns bs ih =>
    have hstep := dispatchMsg_batch_step find m0 ns hq hlen
    have hmsgs : dispatchMsgs find m0 ((ns :: bs).map
        (fun l => .searchIndexBatch l false m0.searchIndexGeneration))
        = dispatchMsgs find (dispatchMsg find m0 (.searchIndexBatch ns false
            m0.searchIndexGeneration))
          (bs.map (fun l => .searchIndexBatch l false m0.searchIndexGeneration)) := rfl
    set m1 := dispatchMsg find m0 (.searchIndexBatch ns false m0.searchIndexGeneration)
      with hm1
    have hq1 : m1.search.isEmpty = false := by rw [hstep.1]; exact hq
    have hlen1 : m1.searchIndexNames.length = m1.searchIndexNodes.length := by
      rw [hstep.2.2.2.1, hstep.2.2.2.2.1]
      simp [hlen]
    have hgen1 : m0.searchIndexGeneration = m1.searchIndexGeneration := hstep.2.2.1.symm
    have ih1 := ih m1 hq1 hlen1
    rw [hmsgs, hgen1]
    refine ⟨?_, ?_, ?_, ?_⟩
    · rw [ih1.1, hstep.1, hstep.2.1, hstep.2.2.2.1, hstep.2.2.2.2.2]
      conv_rhs => rw [mergeAllBatches.eq_def]
      simp only [List.length_append, List.length_map, isEmpty_map]
      by_cases hns : ns.isEmpty = true <;> simp only [List.isEmpty_iff] at hns <;> simp [hns]
    · rw [ih1.2.1, hstep.2.2.2.1]
      simp
    · rw [ih1.2.2.1, hstep.2.1, hstep.2.2.2.2.1]
      simp
    · rw [ih1.2.2.2, hstep.1]

/-- Concrete state and batch sequence for the C3 witness. -/
def c3model : model := { c7model with search := ['a'] }

def c3batches : List (List Pos) := [[[0]], [], [[0], [1]]]

/-- Witness for C3 at a concrete state and batch list. -/
theorem c3_pendingMatchInvariant_witness :
    c3model.search.isEmpty = false ∧
    c3model.searchIndexNames.length = c3model.searchIndexNodes.length ∧
    ((dispatchMsgs find0 c3model (c3batches.map
        (fun ns => .searchIndexBatch ns false
          c3model.searchIndexGeneration))).searchPendingMatches
      = mergeAllBatches find0 c3model.search
          (c3batches.map (List.map (nodeNameAt c3model.treeRoot)))
          c3model.searchIndexNodes.length c3model.searchPendingMatches ∧
    (dispatchMsgs find0 c3model (c3batches.map
        (fun ns => .searchIndexBatch ns false
          c3model.searchIndexGeneration))).searchIndexNodes
      = c3model.searchIndexNodes ++ c3batches.flatten ∧
    (dispatchMsgs find0 c3model (c3batches.map
        (fun ns => .searchIndexBatch ns false
          c3model.searchIndexGeneration))).searchIndexNames
      = c3model.searchIndexNames
          ++ (c3batches.map (List.map (nodeNameAt c3model.treeRoot))).flatten ∧
    (dispatchMsgs find0 c3model (c3batches.map
        (fun ns => .searchIndexBatch ns false
          c3model.searchIndexGeneration))).search
      = c3model.search) :=
  ⟨by decide, by decide,
   c3_pendingMatchInvariant find0 c3model c3batches (by decide) (by decide)⟩

/-- Concrete sorted inputs for the C2 witness. -/
def c2a : List Match := [⟨0, 9⟩, ⟨1, 5⟩, ⟨2, 5⟩, ⟨3, 1⟩]

def c2b : List Match := [⟨4, 5⟩, ⟨5, 2⟩]

/-- Witness for C2 at concrete sorted inputs. -/
theorem c2_mergeMatchesByScore_witness :
    List.Sorted scoreGE c2a ∧ List.Sorted scoreGE c2b ∧
    (List.Sorted scoreGE (mergeMatchesByScore c2a c2b) ∧
     (mergeMatchesByScore c2a c2b).length = c2a.length + c2b.length ∧
     (mergeMatchesByScore c2a c2b).Perm (c2a ++ c2b) ∧
     c2a.Sublist (mergeMatchesByScore c2a c2b) ∧
     c2b.Sublist (mergeMatchesByScore c2a c2b) ∧
     (∀ s : Int, (mergeMatchesByScore c2a c2b).filter (fun u => decide (u.score = s)) =
       c2a.filter (fun u => decide (u.score = s)) ++
         c2b.filter (fun u => decide (u.score = s)))) :=
  ⟨by decide, by decide, c2_mergeMatchesByScore c2a c2b (by decide) (by decide)⟩

/-! ## Tree enumeration lemmas -/

theorem mem_sections (g : Nat → treeNode → List Pos) :
    ∀ (cs : List treeNode) (k : Nat) (q : Pos),
    q ∈ sections g cs k ↔ ∃ j c rest, cs.get? j = some c ∧ q = (k + j) :: rest ∧
      rest ∈ g (k + j) c := by
  intro cs
  induction cs with
  | nil => intro k q; simp [sections]
  | cons c cs ih =>
    intro k q
    constructor
    · intro h
      rcases List.mem_append.mp h with h | h
      · rcases List.mem_map.mp h with ⟨rest, hrest, rfl⟩
        exact ⟨0, c, rest, rfl, by simp, by simpa using hrest⟩
      · rcases (ih (k + 1) q).mp h with ⟨j, c', rest, hget, rfl, hmem⟩
        refine ⟨j + 1, c', rest, by simpa using hget, ?_, ?_⟩
        · rw [show k + (j + 1) = k + 1 + j from by omega]
        · rw [show k + (j + 1) = k + 1 + j from by omega]
          exact hmem
    · rintro ⟨j, c', rest, hget, rfl, hmem⟩
      cases j with
      | zero =>
        simp only [List.get?_cons_zero, Option.some_inj] at hget
        subst hget
        simp only [Nat.add_zero] at hmem ⊢
        exact List.mem_append.mpr (Or.inl (List.mem_map.mpr ⟨rest, hmem, rfl⟩))
      | succ j' =>
        refine List.mem_append.mpr (Or.inr ?_)
        refine (ih (k + 1) _).mpr ⟨j', c', rest, by simpa using hget, ?_, ?_⟩
        · rw [show k + 1 + j' = k + (j' + 1) from by omega]
        · rw [show k + 1 + j' = k + (j' + 1) from by omega]
          exact hmem

theorem flattenChildren_eq (mh : Bool) :
    ∀ (cs : List treeNode) (k : Nat),
    flattenChildren mh cs k = sections (fun _ c => flattenInto mh c) cs k := by
  intro cs
  induction cs with
  | nil => intro k; rfl
  | cons c cs ih => intro k; simp [flattenChildren, sections, ih]

theorem allChildren_eq :
    ∀ (cs : List treeNode) (k : Nat),
    allChildren cs k = sections (fun _ c => allPositions c) cs k := by
  intro cs
  induction cs with
  | nil => intro k; rfl
  | cons c cs ih => intro k; simp [allChildren, sections, ih]

theorem collectChildren_eq (mh : Bool) :
    ∀ (cs : List treeNode) (k : Nat),
    collectChildren mh cs k = sections (fun _ c => collectAllDescendants mh c) cs k := by
  intro cs
  induction cs with
  | nil => intro k; rfl
  | cons c cs ih => intro k; simp [collectChildren, sections, ih]

theorem preChildren_eq (mh : Bool) :
    ∀ (cs : List treeNode) (k : Nat),
    preChildren mh cs k = sections (fun _ c => preVisible mh c) cs k := by
  intro cs
  induction cs with
  | nil => intro k; rfl
  | cons c cs ih => intro k; simp [preChildren, sections, ih]

theorem filteredChildren_eq (mh : Bool) (ms : List Pos) :
    ∀ (cs : List treeNode) (k : Nat),
    filteredChildren mh ms cs k
      = sections (fun i c => buildFilteredTreeFlatten mh (childMatches i ms) c) cs k := by
  intro cs
  induction cs with
  | nil => intro k; rfl
  | cons c cs ih => intro k; simp [filteredChildren, sections, ih]

theorem mem_flattenInto (mh : Bool) :
    ∀ (q : Pos) (t : treeNode), q ∈ flattenInto mh t ↔ visB mh t q = true := by
  intro q
  induction q with
  | nil =>
    intro t
    cases t with
    | node ent exp ld cs =>
      by_cases hs : skipHidden mh ent = true
      · simp [flattenInto, visB, hs, treeNode.ent]
      · simp [flattenInto, visB, hs, treeNode.ent]
  | cons j q ih =>
    intro t
    cases t with
    | node ent exp ld cs =>
      by_cases hs : skipHidden mh ent = true
      · simp [flattenInto, visB, hs, treeNode.ent]
      · by_cases hel : (exp && ld) = true
        · rw [show flattenInto mh (.node ent exp ld cs)
              = [] :: flattenChildren mh cs 0 from by simp [flattenInto, hs, hel]]
          rw [flattenChildren_eq]
          constructor
          · intro h
            rcases List.mem_cons.mp h with h | h
            · exact absurd h (by simp)
            · rcases (mem_sections _ cs 0 _).mp h with ⟨j', c, rest, hget, heq, hmem⟩
              simp only [Nat.zero_add] at heq
              obtain ⟨rfl, rfl⟩ : j' = j ∧ rest = q := by
                constructor <;> [exact (List.cons.injEq _ _ _ _ ▸ heq).1.symm;
                  exact (List.cons.injEq _ _ _ _ ▸ heq).2.symm]
              simp only [visB, treeNode.ent, treeNode.expanded, treeNode.loaded,
                treeNode.children, hget]
              simp only [Bool.and_eq_true] at hel
              simp [hs, hel.1, hel.2, (ih c).mp hmem]
          · intro h
            simp only [visB, treeNode.ent, treeNode.expanded, treeNode.loaded,
              treeNode.children] at h
            rcases hget : cs.get? j with _ | c
            · rw [hget] at h; simp at h
            · rw [hget] at h
              simp only [Bool.and_eq_true] at h
              refine List.mem_cons.mpr (Or.inr ?_)
              refine (mem_sections _ cs 0 _).mpr ⟨j, c, q, hget, by simp, ?_⟩
              exact (ih c).mpr h.2
        · rw [show flattenInto mh (.node ent exp ld cs) = [[]] from by
            simp [flattenInto, hs, hel]]
          simp only [visB, treeNode.ent, treeNode.expanded, treeNode.loaded]
          constructor
          · intro h; simp at h
          · intro h
            simp only [Bool.and_eq_true] at h
            exact absurd (by simp [h.1.1.2, h.1.2] : (exp && ld) = true) hel

theorem mem_allPositions :
    ∀ (q : Pos) (t : treeNode), q ∈ allPositions t ↔ (subtreeAt t q).isSome = true := by
  intro q
  induction q with
  | nil =>
    intro t
    cases t with
    | node ent exp ld cs => simp [allPositions, subtreeAt]
  | cons j q ih =>
    intro t
    cases t with
    | node ent exp ld cs =>
      rw [show allPositions (.node ent exp ld cs) = [] :: allChildren cs 0 from rfl,
        allChildren_eq]
      constructor
      · intro h
        rcases List.mem_cons.mp h with h | h
        · exact absurd h (by simp)
        · rcases (mem_sections _ cs 0 _).mp h with ⟨j', c, rest, hget, heq, hmem⟩
          simp only [Nat.zero_add] at heq
          obtain ⟨rfl, rfl⟩ : j' = j ∧ rest = q := by
            constructor <;> [exact (List.cons.injEq _ _ _ _ ▸ heq).1.symm;
              exact (List.cons.injEq _ _ _ _ ▸ heq).2.symm]
          simp only [subtreeAt, treeNode.children, hget]
          exact (ih c).mp hmem
      · intro h
        simp only [subtreeAt, treeNode.children] at h
        rcases hget : cs.get? j with _ | c
        · rw [hget] at h; simp at h
        · rw [hget] at h
          refine List.mem_cons.mpr (Or.inr ?_)
          exact (mem_sections _ cs 0 _).mpr ⟨j, c, q, hget, by simp, (ih c).mpr h⟩

theorem subtreeAt_append :
    ∀ (p q : Pos) (t : treeNode),
    subtreeAt t (p ++ q) = (subtreeAt t p).bind (fun s => subtreeAt s q) := by
  intro p
  induction p with
  | nil => intro q t; simp [subtreeAt]
  | cons i p ih =>
    intro q t
    simp only [List.cons_append, subtreeAt]
    rcases hget : t.children.get? i with _ | c
    · simp
    · exact ih q c

/-! ## The filtered view equation (claim C4) -/

theorem inClosure_cons_index (j : Nat) (q : Pos) :
    ∀ ms : List Pos, inClosure ms (j :: q) = inClosure (childMatches j ms) q := by
  intro ms
  induction ms with
  | nil => rfl
  | cons m rest ih =>
    cases m with
    | nil => simp [inClosure, childMatches, List.isPrefixOf] at ih ⊢; exact ih
    | cons i r =>
      by_cases hij : i = j
      · subst hij
        simp only [inClosure, childMatches, List.any_cons, List.isPrefixOf] at ih ⊢
        simp [ih]
      · have : (j == i) = false := by simp [Ne.symm hij]
        simp only [inClosure, childMatches, List.any_cons, List.isPrefixOf] at ih ⊢
        simp [this, hij, ih]

theorem mem_childMatches (j : Nat) (m' : Pos) (ms : List Pos) :
    m' ∈ childMatches j ms ↔ (j :: m') ∈ ms := by
  unfold childMatches
  rw [List.mem_filterMap]
  constructor
  · rintro ⟨m, hm, hmatch⟩
    cases m with
    | nil => simp at hmatch
    | cons i r =>
      by_cases hij : i = j
      · subst hij
        simp at hmatch
        subst hmatch
        exact hm
      · simp [hij] at hmatch
  · intro h
    exact ⟨j :: m', h, by simp⟩

theorem goodB_skip {mh : Bool} {t : treeNode} {m : Pos} (h : goodB mh t m = true) :
    skipHidden mh t.ent = false := by
  cases m with
  | nil => simpa [goodB] using h
  | cons j p =>
    unfold goodB at h
    simp only [Bool.and_eq_true] at h
    simpa using h.1

theorem goodB_step {mh : Bool} {t : treeNode} {j : Nat} {rest : Pos}
    (h : goodB mh t (j :: rest) = true) :
    ∃ c, t.children.get? j = some c ∧ c.ent.isSome = true ∧ goodB mh c rest = true := by
  unfold goodB at h
  rcases hget : t.children.get? j with _ | c
  · rw [hget] at h
    simp at h
  · rw [hget] at h
    simp only [Bool.and_eq_true] at h
    exact ⟨c, rfl, h.2.1, h.2.2⟩

theorem goodB_ancestor {mh : Bool} :
    ∀ (q m : Pos) (t : treeNode), q <+: m → goodB mh t m = true → goodB mh t q = true := by
  intro q
  induction q with
  | nil =>
    intro m t _ h
    simpa [goodB] using goodB_skip h
  | cons j q ih =>
    intro m t hpre h
    rcases hpre with ⟨rest0, rfl⟩
    rcases goodB_step h with ⟨c, hget, hent, hg⟩
    have hq : goodB mh c q = true := ih (q ++ rest0) c ⟨rest0, rfl⟩ hg
    simp [goodB, goodB_skip h, hent, hq, ← List.get?_eq_getElem?, hget]

theorem goodB_valid {mh : Bool} :
    ∀ (m : Pos) (t : treeNode), goodB mh t m = true → (subtreeAt t m).isSome = true := by
  intro m
  induction m with
  | nil => intro t _; simp [subtreeAt]
  | cons j rest ih =>
    intro t h
    rcases goodB_step h with ⟨c, hget, _, hg⟩
    simp only [subtreeAt, hget]
    exact ih c hg

theorem entryAt_child {t : treeNode} {j : Nat} {c : treeNode}
    (hget : t.children.get? j = some c) (q : Pos) :
    entryAt t (j :: q) = entryAt c q := by
  simp only [entryAt, subtreeAt, hget]

theorem goodB_entry {mh : Bool} :
    ∀ (m : Pos) (t : treeNode), goodB mh t m = true → m ≠ [] →
    (entryAt t m).isSome = true := by
  intro m
  induction m with
  | nil => intro t _ h; exact absurd rfl h
  | cons j rest ih =>
    intro t h _
    rcases goodB_step h with ⟨c, hget, hent, hg⟩
    cases rest with
    | nil =>
      rw [entryAt_child hget]
      simpa [entryAt, subtreeAt] using hent
    | cons j' rest' =>
      rw [entryAt_child hget]
      exact ih c hg (by simp)

theorem filter_sections (pred : Pos → Bool) (g : Nat → treeNode → List Pos) :
    ∀ (cs : List treeNode) (k : Nat),
    (sections g cs k).filter pred
      = sections (fun i c => (g i c).filter (fun r => pred (i :: r))) cs k := by
  intro cs
  induction cs with
  | nil => intro k; rfl
  | cons c cs ih =>
    intro k
    simp only [sections, List.filter_append, ih]
    congr 1
    rw [List.filter_map]
    rfl

theorem sections_congr (g1 g2 : Nat → treeNode → List Pos) :
    ∀ (cs : List treeNode) (k : Nat),
    (∀ j c, cs.get? j = some c → g1 (k + j) c = g2 (k + j) c) →
    sections g1 cs k = sections g2 cs k := by
  intro cs
  induction cs with
  | nil => intro k _; rfl
  | cons c cs ih =>
    intro k h
    simp only [sections]
    congr 1
    · rw [show g1 k c = g2 k c from by simpa using h 0 c rfl]
    · exact ih (k + 1) (fun j c' hget => by
        have := h (j + 1) c' (by simpa using hget)
        rwa [show k + (j + 1) = k + 1 + j from by omega] at this)

theorem sizeT_le_of_mem : ∀ (cs : List treeNode) (c : treeNode), c ∈ cs →
    sizeT c ≤ sizeL cs := by
  intro cs
  induction cs with
  | nil => intro c h; simp at h
  | cons c0 cs ih =>
    intro c h
    rcases List.mem_cons.mp h with rfl | h
    · simp [sizeL]
    · have := ih c h
      simp [sizeL]
      omega

theorem buildFilteredTreeFlatten_eq (mh : Bool) :
    ∀ (n : Nat) (t : treeNode), sizeT t ≤ n → ∀ (ms : List Pos),
    (∀ m ∈ ms, goodB mh t m = true) →
    buildFilteredTreeFlatten mh ms t
      = (allPositions t).filter (fun q => inClosure ms q && (entryAt t q).isSome) := by
  intro n
  induction n with
  | zero =>
    intro t hle
    exact absurd hle (by have := sizeT_pos t; omega)
  | succ n ihn =>
    intro t hle ms hgood
    cases t with
    | node ent exp ld cs =>
      by_cases hms : ms.isEmpty = true
      · have : ms = [] := by simpa [List.isEmpty_iff] using hms
        subst this
        rw [show buildFilteredTreeFlatten mh [] (.node ent exp ld cs) = [] from by
          simp [buildFilteredTreeFlatten]]
        symm
        rw [List.filter_eq_nil_iff]
        intro q _
        simp [inClosure]
      · have hms' : ms ≠ [] := by simpa [List.isEmpty_iff] using hms
        obtain ⟨m0, hm0⟩ : ∃ m, m ∈ ms := List.exists_mem_of_ne_nil ms hms'
        have hskip : skipHidden mh ent = false := by
          simpa [treeNode.ent] using goodB_skip (hgood m0 hm0)
        have hcl : inClosure ms [] = true := by
          unfold inClosure
          rw [List.any_eq_true]
          exact ⟨m0, hm0, by simp [List.isPrefixOf]⟩
        rw [show buildFilteredTreeFlatten mh ms (.node ent exp ld cs)
            = (if ent.isSome then [([] : Pos)] else []) ++ filteredChildren mh ms cs 0 from by
          rw [buildFilteredTreeFlatten.eq_def]
          simp [hms, hskip]]
        rw [show allPositions (.node ent exp ld cs) = [] :: allChildren cs 0 from rfl]
        rw [List.filter_cons, allChildren_eq, filteredChildren_eq, filter_sections]
        have hsz : sizeL cs ≤ n := by
          simp only [sizeT] at hle; omega
        have hsec : sections (fun i c => buildFilteredTreeFlatten mh (childMatches i ms) c) cs 0
            = sections (fun i c => (allPositions c).filter
                (fun r => inClosure ms (i :: r) && (entryAt (treeNode.node ent exp ld cs)
                  (i :: r)).isSome)) cs 0 := by
          apply sections_congr
          intro j c hget
          simp only [Nat.zero_add]
          have hcsz : sizeT c ≤ n :=
            le_trans (sizeT_le_of_mem cs c (List.get?_mem hget)) hsz
          have hchildgood : ∀ m' ∈ childMatches j ms, goodB mh c m' = true := by
            intro m' hm'
            have hmem : (j :: m') ∈ ms := (mem_childMatches j m' ms).mp hm'
            rcases goodB_step (hgood _ hmem) with ⟨c', hget', _, hg'⟩
            simp only [treeNode.children] at hget'
            rw [hget] at hget'
            injection hget' with h'
            exact h' ▸ hg'
          rw [ihn c hcsz (childMatches j ms) hchildgood]
          congr 1
          funext r
          rw [inClosure_cons_index, entryAt_child (by simpa [treeNode.children] using hget)]
        rw [hsec]
        have hent0 : entryAt (treeNode.node ent exp ld cs) [] = ent := rfl
        by_cases hent : ent.isSome = true
        · simp [hcl, hent0, hent]
        · simp [hcl, hent0, hent]

theorem inClosure_iff (ms : List Pos) (q : Pos) :
    inClosure ms q = true ↔ ∃ m ∈ ms, q <+: m := by
  unfold inClosure
  rw [List.any_eq_true]
  simp [List.isPrefixOf_iff_prefix]

/-- C4 (amended): for a virtual-root tree and a non-empty set of matched
nodes, each a node of the tree below the root whose whole path passes the
hidden rule *for the `modeHidden` passed to the build*, `buildFilteredTree`
returns exactly the nodes of the ancestor closure of the matches (excluding
the virtual root), in the DFS preorder of the real tree: the output is
literally the DFS enumeration of the tree filtered to the closure, it
contains every match and every strict ancestor below the root, and nothing
outside the closure.  The hidden-rule precondition is necessary: the search
index is not rebuilt when hidden display is toggled, and a hidden match
indexed earlier is pruned by the build (see the counterexample below), so
the claim does not hold for every reachable match set. -/
theorem c4_buildFilteredTree (t : treeNode) (ms : List Pos) (mh : Bool)
    (hroot : t.ent = none) (hms : ms ≠ [])
    (hgood : ∀ m ∈ ms, m ≠ [] ∧ goodB mh t m = true) :
    buildFilteredTree t ms mh
      = (allPositions t).filter (fun q => !q.isEmpty && inClosure ms q) ∧
    (∀ m ∈ ms, m ∈ buildFilteredTree t ms mh) ∧
    (∀ m ∈ ms, ∀ q, q <+: m → q ≠ [] → q ∈ buildFilteredTree t ms mh) ∧
    (∀ q ∈ buildFilteredTree t ms mh, q ≠ [] ∧ ∃ m ∈ ms, q <+: m) := by
  have hflat : buildFilteredTree t ms mh = buildFilteredTreeFlatten mh ms t := by
    unfold buildFilteredTree
    rw [if_neg (by simpa [List.isEmpty_iff] using hms)]
  have heq := buildFilteredTreeFlatten_eq mh (sizeT t) t le_rfl ms
    (fun m hm => (hgood m hm).2)
  have hpred : ∀ q ∈ allPositions t,
      (inClosure ms q && (entryAt t q).isSome) = (!q.isEmpty && inClosure ms q) := by
    intro q _
    cases q with
    | nil => simp [entryAt, subtreeAt, hroot]
    | cons j r =>
      by_cases hc : inClosure ms (j :: r) = true
      · have hsome : (entryAt t (j :: r)).isSome = true := by
          obtain ⟨m, hm, hpre⟩ := (inClosure_iff ms (j :: r)).mp hc
          exact goodB_entry _ t (goodB_ancestor _ m t hpre (hgood m hm).2) (by simp)
        simp [hc, hsome]
      · simp [hc]
  have hmain : buildFilteredTree t ms mh
      = (allPositions t).filter (fun q => !q.isEmpty && inClosure ms q) := by
    rw [hflat, heq]
    exact List.filter_congr hpred
  refine ⟨hmain, ?_, ?_, ?_⟩
  · intro m hm
    rw [hmain, List.mem_filter]
    refine ⟨(mem_allPositions m t).mpr (goodB_valid m t (hgood m hm).2), ?_⟩
    have hne := (hgood m hm).1
    have h1 : (!m.isEmpty) = true := by
      cases m with
      | nil => exact absurd rfl hne
      | cons a b => simp
    have h2 : inClosure ms m = true := (inClosure_iff ms m).mpr ⟨m, hm, List.prefix_refl m⟩
    simp [h1, h2]
  · intro m hm q hq hqne
    rw [hmain, List.mem_filter]
    have hgq : goodB mh t q = true := goodB_ancestor q m t hq (hgood m hm).2
    refine ⟨(mem_allPositions q t).mpr (goodB_valid q t hgq), ?_⟩
    have h1 : (!q.isEmpty) = true := by
      cases q with
      | nil => exact absurd rfl hqne
      | cons a b => simp
    have h2 : inClosure ms q = true := (inClosure_iff ms q).mpr ⟨m, hm, hq⟩
    simp [h1, h2]
  · intro q hq
    rw [hmain, List.mem_filter] at hq
    have h2 := hq.2
    simp only [Bool.and_eq_true] at h2
    refine ⟨?_, (inClosure_iff ms q).mp h2.2⟩
    intro hqnil
    subst hqnil
    simp at h2

/-- Concrete tree for the C4 witness: a virtual root with a directory `a`
containing `b`, plus a sibling file `c`. -/
def c4tree : treeNode :=
  .node none true true
    [.node (some ⟨['a'], true, false⟩) true true [.node (some ⟨['b'], false, false⟩) false false []],
     .node (some ⟨['c'], false, false⟩) false false []]

/-- Witness for C4 at a concrete tree and match set (the single match
`a/b`). -/
theorem c4_buildFilteredTree_witness :
    c4tree.ent = none ∧ ([[0, 0]] : List Pos) ≠ [] ∧
    (∀ m ∈ ([[0, 0]] : List Pos), m ≠ [] ∧ goodB false c4tree m = true) ∧
    (buildFilteredTree c4tree [[0, 0]] false
      = (allPositions c4tree).filter (fun q => !q.isEmpty && inClosure [[0, 0]] q) ∧
     (∀ m ∈ ([[0, 0]] : List Pos), m ∈ buildFilteredTree c4tree [[0, 0]] false) ∧
     (∀ m ∈ ([[0, 0]] : List Pos), ∀ q, q <+: m → q ≠ [] →
        q ∈ buildFilteredTree c4tree [[0, 0]] false) ∧
     (∀ q ∈ buildFilteredTree c4tree [[0, 0]] false, q ≠ [] ∧ ∃ m ∈ [[0, 0]], q <+: m)) :=
  ⟨rfl, by decide, by decide,
   c4_buildFilteredTree c4tree [[0, 0]] false rfl (by decide) (by decide)⟩

/-- Tree for the C4 counterexample: a virtual root whose only child is a
hidden file. -/
def c4ctree : treeNode :=
  .node none true true [.node (some ⟨['h'], false, true⟩) false false []]

/-- Counterexample to C4 as stated: `[0]` is a real node of the tree with an
entry, and it passes the hidden rule of the indexing-time mode
(`modeHidden = true`, hidden files displayed), so the index can hold it; the
match set `[[0]]` is non-empty; yet with hidden display off the build prunes
the hidden node, so the filtered view does not contain the match — the
unrestricted "contains every match and its ancestor chain" fails. -/
theorem c4_counterexample :
    ([[0]] : List Pos) ≠ [] ∧
    (subtreeAt c4ctree [0]).isSome = true ∧
    (entryAt c4ctree [0]).isSome = true ∧
    hiddenOK true c4ctree [0] = true ∧
    [0] ∉ buildFilteredTree c4ctree [[0]] false := by decide

/-! ## The streaming indexer (claim C6) -/

theorem preVisible_eq (mh : Bool) :
    ∀ (n : Nat) (t : treeNode), sizeT t ≤ n →
    preVisible mh t
      = (allPositions t).filter (fun q => hiddenOK mh t q && (entryAt t q).isSome) := by
  intro n
  induction n with
  | zero =>
    intro t hle
    exact absurd hle (by have := sizeT_pos t; omega)
  | succ n ihn =>
    intro t hle
    cases t with
    | node ent exp ld cs =>
      by_cases hs : skipHidden mh ent = true
      · rw [show preVisible mh (.node ent exp ld cs) = [] from by simp [preVisible, hs]]
        symm
        rw [List.filter_eq_nil_iff]
        intro q _
        have h0 : hiddenOK mh (treeNode.node ent exp ld cs) q = false := by
          cases q <;> simp [hiddenOK, treeNode.ent, hs]
        simp [h0]
      · rw [show preVisible mh (.node ent exp ld cs)
            = (if ent.isSome then [([] : Pos)] else []) ++ preChildren mh cs 0 from by
          simp [preVisible, hs]]
        rw [show allPositions (.node ent exp ld cs) = [] :: allChildren cs 0 from rfl,
          List.filter_cons, allChildren_eq, preChildren_eq, filter_sections]
        have hsz : sizeL cs ≤ n := by simp only [sizeT] at hle; omega
        have hsec : sections (fun _ c => preVisible mh c) cs 0
            = sections (fun i c => (allPositions c).filter (fun r =>
                hiddenOK mh (treeNode.node ent exp ld cs) (i :: r) &&
                (entryAt (treeNode.node ent exp ld cs) (i :: r)).isSome)) cs 0 := by
          apply sections_congr
          intro j c hget
          simp only [Nat.zero_add]
          have hcsz : sizeT c ≤ n :=
            le_trans (sizeT_le_of_mem cs c (List.get?_mem hget)) hsz
          rw [ihn c hcsz]
          congr 1
          funext r
          have h1 : hiddenOK mh (treeNode.node ent exp ld cs) (j :: r)
              = hiddenOK mh c r := by
            rw [show hiddenOK mh (treeNode.node ent exp ld cs) (j :: r)
                = (!skipHidden mh ent &&
                    match cs.get? j with
                    | some c => hiddenOK mh c r
                    | none => false) from rfl, hget]
            simp [hs]
          rw [h1, entryAt_child (show (treeNode.node ent exp ld cs).children.get? j
            = some c from by simpa [treeNode.children] using hget)]
        rw [hsec]
        have hh0 : hiddenOK mh (treeNode.node ent exp ld cs) [] = true := by
          simp [hiddenOK, treeNode.ent, hs]
        have hent0 : entryAt (treeNode.node ent exp ld cs) [] = ent := rfl
        by_cases hent : ent.isSome = true <;> simp [hh0, hent0, hent]

theorem pushChildren_contrib (mh : Bool) (q : Pos) :
    ∀ (cs : List treeNode) (k : Nat),
    ((pushChildren q cs k).map (fun e => (preVisible mh e.2).map (e.1 ++ ·))).flatten
      = (preChildren mh cs k).map (q ++ ·) := by
  intro cs
  induction cs with
  | nil => intro k; rfl
  | cons c cs ih =>
    intro k
    simp only [pushChildren, List.map_cons, List.flatten_cons, preChildren, List.map_append,
      List.map_map, ih]
    congr 1
    apply List.map_congr_left
    intro r _
    simp

theorem streamDFSLoop_join (mh : Bool) :
    ∀ (stack : List (Pos × treeNode)) (batch : List Pos),
    (streamDFSLoop mh stack batch).flatten
      = batch ++ (stack.map (fun e => (preVisible mh e.2).map (e.1 ++ ·))).flatten := by
  intro stack batch
  induction stack, batch using streamDFSLoop.induct mh with
  | case1 batch => simp [streamDFSLoop]
  | case2 q t stack batch hskip ih =>
    rw [streamDFSLoop.eq_def]
    dsimp only
    rw [if_pos hskip, ih]
    have hpre : preVisible mh t = [] := by
      cases t with
      | node ent exp ld cs =>
        simp only [treeNode.ent] at hskip
        simp [preVisible, hskip]
    rw [List.map_cons, List.flatten_cons, hpre]
    simp
  | case3 q t stack batch hskip bp sp hflush ih =>
    have hflush2 : searchBatchSize ≤ (if t.ent.isSome = true then batch ++ [q] else batch).length :=
      hflush
    have ih2 : (streamDFSLoop mh (pushChildren q t.children 0 ++ stack) []).flatten
        = [] ++ ((pushChildren q t.children 0 ++ stack).map
            (fun e => (preVisible mh e.2).map (e.1 ++ ·))).flatten := ih
    clear hflush ih sp bp
    rw [streamDFSLoop.eq_def]
    dsimp only
    rw [if_neg hskip, if_pos hflush2, List.flatten_cons, ih2]
    clear ih2
    rw [List.map_cons, List.flatten_cons, List.map_append, List.flatten_append,
      pushChildren_contrib]
    cases t with
    | node ent exp ld cs =>
      simp only [treeNode.ent, treeNode.children] at hflush2 ⊢
      have hsk : skipHidden mh ent = false := by
        simpa [treeNode.ent] using hskip
      have hpre : (preVisible mh (treeNode.node ent exp ld cs)).map (q ++ ·)
          = (if ent.isSome then [q] else []) ++ (preChildren mh cs 0).map (q ++ ·) := by
        simp only [preVisible, hsk, Bool.false_eq_true, if_false, List.map_append]
        congr 1
        by_cases hent : ent.isSome = true <;> simp [hent]
      rw [hpre]
      by_cases hent : ent.isSome = true <;> simp [hent]
  | case4 q t stack batch hskip bp sp hflush ih =>
    have hflush2 : ¬searchBatchSize ≤ (if t.ent.isSome = true then batch ++ [q] else batch).length :=
      hflush
    have ih2 : (streamDFSLoop mh (pushChildren q t.children 0 ++ stack)
          (if t.ent.isSome = true then batch ++ [q] else batch)).flatten
        = (if t.ent.isSome = true then batch ++ [q] else batch)
            ++ ((pushChildren q t.children 0 ++ stack).map
              (fun e => (preVisible mh e.2).map (e.1 ++ ·))).flatten := ih
    clear hflush ih sp bp
    rw [streamDFSLoop.eq_def]
    dsimp only
    rw [if_neg hskip, if_neg hflush2, ih2]
    clear ih2
    rw [List.map_cons, List.flatten_cons, List.map_append, List.flatten_append,
      pushChildren_contrib]
    cases t with
    | node ent exp ld cs =>
      simp only [treeNode.ent, treeNode.children] at hflush2 ⊢
      have hsk : skipHidden mh ent = false := by
        simpa [treeNode.ent] using hskip
      have hpre : (preVisible mh (treeNode.node ent exp ld cs)).map (q ++ ·)
          = (if ent.isSome then [q] else []) ++ (preChildren mh cs 0).map (q ++ ·) := by
        simp only [preVisible, hsk, Bool.false_eq_true, if_false, List.map_append]
        congr 1
        by_cases hent : ent.isSome = true <;> simp [hent]
      rw [hpre]
      by_cases hent : ent.isSome = true <;> simp [hent]

theorem getLast?_cons_ne_nil {α : Type} (a : α) (l : List α) (h : l ≠ []) :
    (a :: l).getLast? = l.getLast? := by
  cases l with
  | nil => exact absurd rfl h
  | cons b m => simp [List.getLast?_cons_cons]

theorem streamDFSLoop_batches (mh : Bool) :
    ∀ (stack : List (Pos × treeNode)) (batch : List Pos),
    batch.length < searchBatchSize →
    streamDFSLoop mh stack batch ≠ [] ∧
    (∀ b ∈ (streamDFSLoop mh stack batch).dropLast, b.length = searchBatchSize) ∧
    ((streamDFSLoop mh stack batch).getLast?.getD []).length < searchBatchSize := by
  intro stack batch
  induction stack, batch using streamDFSLoop.induct mh with
  | case1 batch =>
    intro hlen
    refine ⟨by simp [streamDFSLoop], ?_, ?_⟩
    · intro b hb
      simp [streamDFSLoop] at hb
    · simpa [streamDFSLoop] using hlen
  | case2 q t stack batch hskip ih =>
    intro hlen
    have h := ih hlen
    rw [streamDFSLoop.eq_def]
    dsimp only
    rw [if_pos hskip]
    exact h
  | case3 q t stack batch hskip bp sp hflush ih =>
    intro hlen
    have hflush2 : searchBatchSize ≤ (if t.ent.isSome = true then batch ++ [q] else batch).length :=
      hflush
    have ih2 : ([] : List Pos).length < searchBatchSize →
        (streamDFSLoop mh (pushChildren q t.children 0 ++ stack) [] ≠ [] ∧
         (∀ b ∈ (streamDFSLoop mh (pushChildren q t.children 0 ++ stack) []).dropLast,
            b.length = searchBatchSize) ∧
         ((streamDFSLoop mh (pushChildren q t.children 0 ++ stack) []).getLast?.getD []).length
            < searchBatchSize) := ih
    clear hflush ih sp bp
    have hent : t.ent.isSome = true := by
      by_contra hni
      rw [if_neg hni] at hflush2
      exact absurd hflush2 (not_le.mpr hlen)
    rw [if_pos hent] at hflush2
    have hbplen : (batch ++ [q]).length = searchBatchSize := by
      simp only [List.length_append, List.length_cons, List.length_nil] at hflush2 ⊢
      omega
    obtain ⟨hne, hdrop, hlast⟩ := ih2 (by decide)
    rw [streamDFSLoop.eq_def]
    dsimp only
    rw [if_neg hskip, if_pos hent, if_pos hflush2]
    refine ⟨by simp, ?_, ?_⟩
    · intro b hb
      rw [List.dropLast_cons_of_ne_nil hne] at hb
      rcases List.mem_cons.mp hb with h | h2
      · rw [h]; exact hbplen
      · exact hdrop b h2
    · rw [getLast?_cons_ne_nil _ _ hne]
      exact hlast
  | case4 q t stack batch hskip bp sp hflush ih =>
    intro hlen
    have hflush2 : ¬searchBatchSize ≤ (if t.ent.isSome = true then batch ++ [q] else batch).length :=
      hflush
    have ih2 : (if t.ent.isSome = true then batch ++ [q] else batch).length < searchBatchSize →
        (streamDFSLoop mh (pushChildren q t.children 0 ++ stack)
            (if t.ent.isSome = true then batch ++ [q] else batch) ≠ [] ∧
         (∀ b ∈ (streamDFSLoop mh (pushChildren q t.children 0 ++ stack)
              (if t.ent.isSome = true then batch ++ [q] else batch)).dropLast,
            b.length = searchBatchSize) ∧
         ((streamDFSLoop mh (pushChildren q t.children 0 ++ stack)
              (if t.ent.isSome = true then batch ++ [q] else batch)).getLast?.getD []).length
            < searchBatchSize) := ih
    clear hflush ih sp bp
    rw [streamDFSLoop.eq_def]
    dsimp only
    rw [if_neg hskip, if_neg hflush2]
    exact ih2 (not_le.mp hflush2)

/-- C6: an uncancelled `streamDFS` run emits, across its batches concatenated
in order, exactly the non-root positions of the tree that pass the hidden-file
rule, in depth-first preorder (the left-hand side lists the batches in emission
order); every batch except possibly the final one holds exactly
`searchBatchSize` (500) positions and the final one fewer; and the message
stream `pollSearchIndexCmd` delivers for the run ends with a single
`done = true` message carrying no nodes, every earlier message carrying one
batch with `done = false`, so the dispatcher stops polling deterministically. -/
theorem c6_streamDFS (root : treeNode) (mh : Bool) (gen : Int)
    (hroot : root.ent = none)
    (hents : ∀ q ∈ allPositions root, q ≠ [] → (entryAt root q).isSome = true) :
    (streamDFS root mh).flatten
      = (allPositions root).filter (fun q => !q.isEmpty && hiddenOK mh root q) ∧
    streamDFS root mh ≠ [] ∧
    (∀ b ∈ (streamDFS root mh).dropLast, b.length = searchBatchSize) ∧
    ((streamDFS root mh).getLast?.getD []).length < searchBatchSize ∧
    (indexerMessages root mh gen).getLast? = some ⟨[], true, gen⟩ ∧
    (indexerMessages root mh gen).dropLast.map searchIndexBatchMsg.nodes
      = streamDFS root mh ∧
    (∀ msg ∈ (indexerMessages root mh gen).dropLast, msg.done = false) := by
  obtain ⟨hne, hdrop, hlast⟩ :=
    streamDFSLoop_batches mh [([], root)] [] (by decide)
  refine ⟨?_, hne, hdrop, hlast, ?_, ?_, ?_⟩
  · rw [streamDFS, streamDFSLoop_join]
    simp only [List.map_cons, List.map_nil, List.flatten_cons, List.flatten_nil,
      List.append_nil, List.nil_append]
    rw [List.map_id', preVisible_eq mh (sizeT root) root (le_refl _)]
    apply List.filter_congr
    intro q hq
    cases q with
    | nil =>
      simp [entryAt, subtreeAt, hroot]
    | cons i p =>
      have hs := hents (i :: p) hq (by simp)
      simp [hs, Bool.and_comm]
  · rw [indexerMessages, List.getLast?_concat]
  · rw [indexerMessages, List.dropLast_concat, List.map_map]
    rw [show (searchIndexBatchMsg.nodes ∘ fun b => (⟨b, false, gen⟩ : searchIndexBatchMsg)) = id
      from rfl, List.map_id]
  · intro msg hmsg
    rw [indexerMessages, List.dropLast_concat] at hmsg
    obtain ⟨b, _, hb⟩ := List.mem_map.mp hmsg
    rw [← hb]

/-- Concrete tree for the C6 witness: a virtual root with a directory `a`
containing `b`, plus a hidden sibling `h`. -/
def c6tree : treeNode :=
  .node none true true
    [.node (some ⟨['a'], true, false⟩) true true
      [.node (some ⟨['b'], false, false⟩) false false []],
     .node (some ⟨['h'], false, true⟩) false false []]

/-- Witness for C6 at a concrete tree, hidden-files-off, generation 0. -/
theorem c6_streamDFS_witness :
    c6tree.ent = none ∧
    (∀ q ∈ allPositions c6tree, q ≠ [] → (entryAt c6tree q).isSome = true) ∧
    ((streamDFS c6tree false).flatten
      = (allPositions c6tree).filter (fun q => !q.isEmpty && hiddenOK false c6tree q) ∧
     streamDFS c6tree false ≠ [] ∧
     (∀ b ∈ (streamDFS c6tree false).dropLast, b.length = searchBatchSize) ∧
     ((streamDFS c6tree false).getLast?.getD []).length < searchBatchSize ∧
     (indexerMessages c6tree false 0).getLast? = some ⟨[], true, 0⟩ ∧
     (indexerMessages c6tree false 0).dropLast.map searchIndexBatchMsg.nodes
       = streamDFS c6tree false ∧
     (∀ msg ∈ (indexerMessages c6tree false 0).dropLast, msg.done = false)) :=
  ⟨rfl, by decide, c6_streamDFS c6tree false 0 rfl (by decide)⟩

/-! ## Pointer-update lemmas (claim C10) -/

theorem updateAt_nil (f : treeNode → treeNode) (t : treeNode) : updateAt t [] f = f t := by
  cases t; rfl

theorem updateChild_get (f : treeNode → treeNode) :
    ∀ (cs : List treeNode) (i : Nat) (p : Pos),
    (updateChild cs i p f).get? i = (cs.get? i).map (fun c => updateAt c p f) := by
  intro cs
  induction cs with
  | nil => intro i p; cases i <;> rfl
  | cons c rest ih =>
    intro i p
    cases i with
    | zero => rfl
    | succ j => exact ih j p

theorem subtreeAt_updateAt_self (f : treeNode → treeNode) :
    ∀ (p : Pos) (t s : treeNode), subtreeAt t p = some s →
    subtreeAt (updateAt t p f) p = some (f s) := by
  intro p
  induction p with
  | nil =>
    intro t s h
    have ht : t = s := by simpa [subtreeAt] using h
    subst ht
    rw [updateAt_nil]
    rfl
  | cons i p ih =>
    intro t s h
    cases t with
    | node e x l cs =>
      simp only [subtreeAt, treeNode.children] at h
      rcases hget : cs.get? i with _ | c
      · rw [hget] at h; simp at h
      · rw [hget] at h
        show subtreeAt (.node e x l (updateChild cs i p f)) (i :: p) = some (f s)
        simp only [subtreeAt, treeNode.children, updateChild_get, hget]
        exact ih c s h

theorem updateAt_updateAt (f g : treeNode → treeNode) :
    ∀ (p : Pos) (t : treeNode),
    updateAt (updateAt t p f) p g = updateAt t p (fun s => g (f s)) := by
  intro p
  induction p with
  | nil => intro t; rw [updateAt_nil, updateAt_nil, updateAt_nil]
  | cons i p ih =>
    intro t
    cases t with
    | node e x l cs =>
      show treeNode.node e x l (updateChild (updateChild cs i p f) i p g)
          = treeNode.node e x l (updateChild cs i p (fun s => g (f s)))
      congr 1
      induction cs generalizing i with
      | nil => cases i <;> rfl
      | cons c rest ihc =>
        cases i with
        | zero =>
          show updateAt (updateAt c p f) p g :: rest
              = updateAt c p (fun s => g (f s)) :: rest
          rw [ih c]
        | succ j =>
          show c :: updateChild (updateChild rest j p f) j p g
              = c :: updateChild rest j p (fun s => g (f s))
          rw [ihc j]

theorem updateAt_id_of (f : treeNode → treeNode) :
    ∀ (p : Pos) (t s : treeNode), subtreeAt t p = some s → f s = s →
    updateAt t p f = t := by
  intro p
  induction p with
  | nil =>
    intro t s h hf
    have ht : t = s := by simpa [subtreeAt] using h
    subst ht
    rw [updateAt_nil]
    exact hf
  | cons i p ih =>
    intro t s h hf
    cases t with
    | node e x l cs =>
      simp only [subtreeAt, treeNode.children] at h
      rcases hget : cs.get? i with _ | c
      · rw [hget] at h; simp at h
      · rw [hget] at h
        have hc : updateAt c p f = c := ih c s h hf
        show treeNode.node e x l (updateChild cs i p f) = treeNode.node e x l cs
        congr 1
        clear h
        revert i
        induction cs with
        | nil => intro i hget; simp at hget
        | cons d rest ihc =>
          intro i hget
          cases i with
          | zero =>
            have hd : d = c := by simpa using hget
            show updateAt d p f :: rest = d :: rest
            rw [hd, hc]
          | succ j =>
            have hg2 : rest.get? j = some c := by simpa using hget
            show d :: updateChild rest j p f = d :: rest
            rw [ihc j hg2]

theorem updateAt_setExpanded_ent (b : Bool) :
    ∀ (p : Pos) (c : treeNode), (updateAt c p (setExpanded b)).ent = c.ent := by
  intro p c
  cases p with
  | nil => cases c; rfl
  | cons i q => cases c; rfl

theorem fullPathAt_updateAt_setExpanded (b : Bool) :
    ∀ (p : Pos) (base : Str) (t : treeNode),
    fullPathAt base (updateAt t p (setExpanded b)) p = fullPathAt base t p := by
  intro p
  induction p with
  | nil => intro base t; rfl
  | cons i p ih =>
    intro base t
    cases t with
    | node e x l cs =>
      show fullPathAt base (.node e x l (updateChild cs i p (setExpanded b))) (i :: p)
          = fullPathAt base (.node e x l cs) (i :: p)
      simp only [fullPathAt, treeNode.children, updateChild_get]
      rcases hget : cs.get? i with _ | c
      · rfl
      · dsimp only [Option.map]
        rw [updateAt_setExpanded_ent]
        rcases hce : c.ent with _ | ce
        · rfl
        · exact ih (base ++ fileSeparator :: ce.name) c

theorem visB_updateAt_setExpanded (mh b : Bool) :
    ∀ (p : Pos) (t : treeNode),
    visB mh (updateAt t p (setExpanded b)) p = visB mh t p := by
  intro p
  induction p with
  | nil => intro t; cases t; rfl
  | cons i p ih =>
    intro t
    cases t with
    | node e x l cs =>
      show visB mh (.node e x l (updateChild cs i p (setExpanded b))) (i :: p)
          = visB mh (.node e x l cs) (i :: p)
      simp only [visB, treeNode.ent, treeNode.expanded, treeNode.loaded, treeNode.children,
        updateChild_get]
      rcases hget : cs.get? i with _ | c
      · rfl
      · dsimp only [Option.map]
        rw [ih c]

theorem fromRootVis_updateAt_setExpanded (mh b : Bool) :
    ∀ (p : Pos) (t : treeNode), p ≠ [] →
    fromRootVis mh (updateAt t p (setExpanded b)) p = fromRootVis mh t p := by
  intro p t hp
  cases p with
  | nil => exact absurd rfl hp
  | cons i q =>
    cases t with
    | node e x l cs =>
      show fromRootVis mh (.node e x l (updateChild cs i q (setExpanded b))) (i :: q)
          = fromRootVis mh (.node e x l cs) (i :: q)
      simp only [fromRootVis, treeNode.children, updateChild_get]
      rcases hget : cs.get? i with _ | c
      · rfl
      · dsimp only [Option.map]
        rw [visB_updateAt_setExpanded]

theorem visB_of_append (mh : Bool) :
    ∀ (p q : Pos) (t : treeNode), visB mh t (p ++ q) = true → visB mh t p = true := by
  intro p
  induction p with
  | nil =>
    intro q t h
    cases q with
    | nil => exact h
    | cons j r =>
      cases t with
      | node e x l cs =>
        simp only [List.nil_append] at h
        simp only [visB, treeNode.ent, treeNode.expanded, treeNode.loaded, treeNode.children,
          Bool.and_eq_true] at h ⊢
        exact h.1.1.1
  | cons i p ih =>
    intro q t h
    cases t with
    | node e x l cs =>
      simp only [List.cons_append] at h
      simp only [visB, treeNode.ent, treeNode.expanded, treeNode.loaded, treeNode.children,
        Bool.and_eq_true] at h ⊢
      refine ⟨h.1, ?_⟩
      rcases hget : cs.get? i with _ | c
      · rw [hget] at h
        simpa using h.2
      · rw [hget] at h
        exact ih q c h.2

theorem fromRootVis_append (mh : Bool) (t : treeNode) :
    ∀ (p q : Pos), p ≠ [] → fromRootVis mh t (p ++ q) = true →
    fromRootVis mh t p = true := by
  intro p q hp h
  cases p with
  | nil => exact absurd rfl hp
  | cons j r =>
    simp only [List.cons_append, fromRootVis] at h ⊢
    rcases hget : t.children.get? j with _ | c
    · rw [hget] at h
      simp at h
    · rw [hget] at h
      exact visB_of_append mh r q c h

theorem mem_flattenChildren_root (mh : Bool) (t : treeNode) (q : Pos) :
    q ∈ flattenChildren mh t.children 0 ↔ fromRootVis mh t q = true := by
  rw [flattenChildren_eq]
  cases q with
  | nil =>
    constructor
    · intro h
      rcases (mem_sections _ _ 0 _).mp h with ⟨j, c, rest, hget, heq, hmem⟩
      simp at heq
    · intro h
      simp [fromRootVis] at h
  | cons j rest =>
    rw [fromRootVis]
    constructor
    · intro h
      rcases (mem_sections _ _ 0 _).mp h with ⟨j', c, rest', hget, heq, hmem⟩
      simp only [Nat.zero_add] at heq
      obtain ⟨rfl, rfl⟩ : j' = j ∧ rest' = rest := by
        constructor <;> [exact (List.cons.injEq _ _ _ _ ▸ heq).1.symm;
          exact (List.cons.injEq _ _ _ _ ▸ heq).2.symm]
      rw [hget]
      exact (mem_flattenInto mh _ c).mp hmem
    · intro h
      rcases hget : t.children.get? j with _ | c <;> rw [hget] at h
      · simp at h
      · exact (mem_sections _ _ 0 _).mpr
          ⟨j, c, rest, hget, by simp, (mem_flattenInto mh rest c).mpr h⟩

theorem adjustScrollOffset_eq (m : model) :
    ∃ so, adjustScrollOffset m = { m with scrollOffset := so } := by
  unfold adjustScrollOffset
  dsimp only
  split_ifs <;> exact ⟨_, rfl⟩

theorem findIdx?_found (pred : Pos → Bool) (l : List Pos) (x : Pos)
    (hx : x ∈ l) (hp : pred x = true) : ∃ i, l.findIdx? pred = some i := by
  rw [← Option.isSome_iff_exists, List.findIdx?_isSome, List.any_eq_true]
  exact ⟨x, hx, hp⟩

theorem findIdx?_spec (pred : Pos → Bool) (l : List Pos) (i : Nat)
    (h : l.findIdx? pred = some i) : ∃ x, l.get? i = some x ∧ pred x = true := by
  obtain ⟨hlt, hfi⟩ := List.findIdx?_eq_some_iff_findIdx_eq.mp h
  refine ⟨l.get ⟨i, hlt⟩, ?_, ?_⟩
  · rw [List.get?_eq_getElem?, List.getElem?_eq_getElem hlt]
    rfl
  · have hfx := @List.findIdx_getElem _ pred l (by rw [hfi]; exact hlt)
    simp only [List.get_eq_getElem]
    rw [show l[i] = l[List.findIdx pred l] from by congr 1; exact hfi.symm]
    exact hfx

/-- C10: with no search active, collapsing the parent `foo` of the selected
child `bar` (remembering `(foo's path, bar's name)` in `treeLastChild`) and
then re-expanding `foo` restores the original tree exactly and puts the
cursor on a node under `foo` carrying `bar`'s name, found by the path-derived
lookup rather than by node identity. -/
theorem c10_collapse_expand (find : Str → List Str → List Match) (m : model)
    (p : Pos) (i0 : Nat) (fooEnt barEnt : entry) (fcs : List treeNode)
    (hsearch : m.search = [])
    (hidx0 : 0 ≤ m.treeIdx)
    (hsel : m.visibleNodes.get? m.treeIdx.toNat = some (p ++ [i0]))
    (hvis : m.visibleNodes = flattenChildren m.modeHidden m.treeRoot.children 0)
    (hp : p ≠ [])
    (hfoo : subtreeAt m.treeRoot p = some (treeNode.node (some fooEnt) true true fcs))
    (hdir : fooEnt.isDir = true)
    (hbar : entryAt m.treeRoot (p ++ [i0]) = some barEnt) :
    ∃ (mc me : model) (q : Pos),
      treeCollapse find m = some mc ∧
      treeExpand find mc = some me ∧
      me.treeRoot = m.treeRoot ∧
      selectedTreeNode me = some q ∧
      q.dropLast = p ∧
      ∃ e, entryAt me.treeRoot q = some e ∧ e.name = barEnt.name := by
  have hselm : selectedTreeNode m = some (p ++ [i0]) := by
    rw [selectedTreeNode, if_pos hidx0, hsel]
  have hnp2 : 2 ≤ (p ++ [i0]).length := by
    rcases p with _ | ⟨a, r⟩
    · exact absurd rfl hp
    · simp
  have hdropl : (p ++ [i0]).dropLast = p := by simp
  -- membership of the parent in the collapsed visible list
  have hmemnp : (p ++ [i0]) ∈ m.visibleNodes := List.get?_mem hsel
  have hfrvnp : fromRootVis m.modeHidden m.treeRoot (p ++ [i0]) = true :=
    (mem_flattenChildren_root _ _ _).mp (hvis ▸ hmemnp)
  have hfrvp : fromRootVis m.modeHidden m.treeRoot p = true :=
    fromRootVis_append _ _ p [i0] hp hfrvnp
  have hfrvp2 :
      fromRootVis m.modeHidden (updateAt m.treeRoot p (setExpanded false)) p = true := by
    rw [fromRootVis_updateAt_setExpanded _ _ p _ hp]
    exact hfrvp
  have hpmem2 :
      p ∈ flattenChildren m.modeHidden (updateAt m.treeRoot p (setExpanded false)).children 0 :=
    (mem_flattenChildren_root m.modeHidden _ p).mpr hfrvp2
  obtain ⟨i1, hfind1⟩ := findIdx?_found (fun q => q == p) _ p hpmem2 (by simp)
  obtain ⟨q1, hq1get, hq1pred⟩ := findIdx?_spec _ _ _ hfind1
  have hq1 : q1 = p := by simpa using hq1pred
  rw [hq1] at hq1get
  -- the collapse step
  have hcol : treeCollapse find m
      = some (adjustScrollOffset
          { m with
              treeLastChild :=
                ((fullPathAt m.path m.treeRoot p).getD [], barEnt.name) :: m.treeLastChild,
              treeRoot := updateAt m.treeRoot p (setExpanded false),
              visibleNodes :=
                flattenChildren m.modeHidden
                  (updateAt m.treeRoot p (setExpanded false)).children 0,
              displayed :=
                (flattenChildren m.modeHidden
                  (updateAt m.treeRoot p (setExpanded false)).children 0).length,
              treeIdx := (i1 : Int) }) := by
    unfold treeCollapse
    rw [hselm]
    dsimp only
    rw [if_neg (show ¬¬(List.isEmpty m.search = true) from by simp [hsearch])]
    rw [if_pos hnp2, hdropl, hbar]
    dsimp only
    unfold rebuildVisibleNodes
    rw [if_neg (show ¬¬(List.isEmpty m.search = true) from by simp [hsearch])]
    dsimp only
    rw [hfind1]
  obtain ⟨so1, hso1⟩ := adjustScrollOffset_eq
    { m with
        treeLastChild :=
          ((fullPathAt m.path m.treeRoot p).getD [], barEnt.name) :: m.treeLastChild,
        treeRoot := updateAt m.treeRoot p (setExpanded false),
        visibleNodes :=
          flattenChildren m.modeHidden
            (updateAt m.treeRoot p (setExpanded false)).children 0,
        displayed :=
          (flattenChildren m.modeHidden
            (updateAt m.treeRoot p (setExpanded false)).children 0).length,
        treeIdx := (i1 : Int) }
  rw [hso1] at hcol
  -- the restored tree
  have htr : updateAt (updateAt m.treeRoot p (setExpanded false)) p (setExpanded true)
      = m.treeRoot := by
    rw [updateAt_updateAt]
    exact updateAt_id_of _ p _ _ hfoo rfl
  have hsub2 : subtreeAt (updateAt m.treeRoot p (setExpanded false)) p
      = some (treeNode.node (some fooEnt) false true fcs) :=
    subtreeAt_updateAt_self _ p _ _ hfoo
  have hfull2 : fullPathAt m.path (updateAt m.treeRoot p (setExpanded false)) p
      = fullPathAt m.path m.treeRoot p :=
    fullPathAt_updateAt_setExpanded false p m.path m.treeRoot
  -- the expand step: find the remembered child under `p`
  have hprednp : ((match entryAt m.treeRoot (p ++ [i0]) with
      | some ce => ce.name == barEnt.name
      | none => false) && ((p ++ [i0]).dropLast == p)) = true := by
    rw [hbar, hdropl]
    simp
  obtain ⟨i2, hfind2⟩ := findIdx?_found
    (fun q => (match entryAt m.treeRoot q with
      | some ce => ce.name == barEnt.name
      | none => false) && (q.dropLast == p))
    m.visibleNodes (p ++ [i0]) hmemnp hprednp
  obtain ⟨q2, hq2get, hq2pred⟩ := findIdx?_spec _ _ _ hfind2
  simp only [Bool.and_eq_true] at hq2pred
  obtain ⟨hq2match, hq2drop⟩ := hq2pred
  have hq2dropl : q2.dropLast = p := by simpa using hq2drop
  obtain ⟨ce, hent2, hcename⟩ :
      ∃ e, entryAt m.treeRoot q2 = some e ∧ e.name = barEnt.name := by
    rcases hent2 : entryAt m.treeRoot q2 with _ | ce
    · rw [hent2] at hq2match
      simp at hq2match
    · rw [hent2] at hq2match
      exact ⟨ce, rfl, by simpa using hq2match⟩
  -- the selected node of the collapsed model is the parent
  have hselmc : selectedTreeNode
      { { m with
            treeLastChild :=
              ((fullPathAt m.path m.treeRoot p).getD [], barEnt.name) :: m.treeLastChild,
            treeRoot := updateAt m.treeRoot p (setExpanded false),
            visibleNodes :=
              flattenChildren m.modeHidden
                (updateAt m.treeRoot p (setExpanded false)).children 0,
            displayed :=
              (flattenChildren m.modeHidden
                (updateAt m.treeRoot p (setExpanded false)).children 0).length,
            treeIdx := (i1 : Int) } with scrollOffset := so1 } = some p := by
    rw [selectedTreeNode]
    dsimp only
    rw [if_pos (Int.natCast_nonneg i1)]
    rw [show ((i1 : Int)).toNat = i1 from Int.toNat_natCast i1]
    exact hq1get
  -- the expand step
  have hexp : treeExpand find
      { { m with
            treeLastChild :=
              ((fullPathAt m.path m.treeRoot p).getD [], barEnt.name) :: m.treeLastChild,
            treeRoot := updateAt m.treeRoot p (setExpanded false),
            visibleNodes :=
              flattenChildren m.modeHidden
                (updateAt m.treeRoot p (setExpanded false)).children 0,
            displayed :=
              (flattenChildren m.modeHidden
                (updateAt m.treeRoot p (setExpanded false)).children 0).length,
            treeIdx := (i1 : Int) } with scrollOffset := so1 }
      = some (adjustScrollOffset
          { m with
              treeLastChild :=
                ((fullPathAt m.path m.treeRoot p).getD [], barEnt.name) :: m.treeLastChild,
              displayed := m.visibleNodes.length,
              treeIdx := (i2 : Int),
              scrollOffset := so1 }) := by
    unfold treeExpand
    rw [hselmc]
    dsimp only
    rw [hsub2]
    simp only [Option.getD_some, treeNode.ent, treeNode.expanded, treeNode.loaded,
      treeNode.children]
    rw [if_neg (show ¬¬(fooEnt.isDir = true) from by simp [hdir])]
    rw [if_neg (show ¬(false = true) from by simp)]
    rw [if_neg (show ¬¬True from not_not_intro trivial)]
    rw [htr]
    unfold rebuildVisibleNodes
    rw [if_neg (show ¬¬(List.isEmpty m.search = true) from by simp [hsearch])]
    dsimp only
    rw [← hvis, hfull2]
    rw [show lookupStr
        (((fullPathAt m.path m.treeRoot p).getD [], barEnt.name) :: m.treeLastChild)
        ((fullPathAt m.path m.treeRoot p).getD [])
      = some barEnt.name from by rw [lookupStr, if_pos rfl]]
    dsimp only
    rw [hfind2]
  obtain ⟨so2, hso2⟩ := adjustScrollOffset_eq
    { m with
        treeLastChild :=
          ((fullPathAt m.path m.treeRoot p).getD [], barEnt.name) :: m.treeLastChild,
        displayed := m.visibleNodes.length,
        treeIdx := (i2 : Int),
        scrollOffset := so1 }
  rw [hso2] at hexp
  refine ⟨_, _, q2, hcol, hexp, by rfl, ?_, hq2dropl, ce, hent2, hcename⟩
  rw [selectedTreeNode]
  dsimp only
  rw [if_pos (Int.natCast_nonneg i2)]
  rw [show ((i2 : Int)).toNat = i2 from Int.toNat_natCast i2]
  exact hq2get

/-- Concrete tree for the C10 witness: a virtual root containing the expanded
directory `a` with a single child `b`. -/
def c10tree : treeNode :=
  .node none true true
    [.node (some ⟨['a'], true, false⟩) true true
      [.node (some ⟨['b'], false, false⟩) false false []]]

/-- Concrete model for the C10 witness: tree mode, no search, `a/b` selected. -/
def c10model : model :=
  { path := ['/'],
    search := [],
    modeSearch := false,
    modeTree := true,
    modeHidden := false,
    height := 10,
    treeRoot := c10tree,
    visibleNodes := [[0], [0, 0]],
    treeIdx := 1,
    scrollOffset := 0,
    displayed := 2,
    treeLastChild := [],
    treeSearchStartNode := none,
    searchMatchNodes := [],
    searchIndexNodes := [],
    searchIndexNames := [],
    searchIndexLoading := false,
    searchIndexChanOpen := false,
    searchQueryChanOpen := false,
    searchIndexGeneration := 0,
    searchWorkerGeneration := 0,
    searchPendingMatches := [] }

/-- Witness for C10 at the concrete model: collapse `a`, re-expand it, and the
cursor is back on the node named `b` under `a`. -/
theorem c10_collapse_expand_witness :
    (c10model.search = [] ∧ 0 ≤ c10model.treeIdx ∧
     c10model.visibleNodes.get? c10model.treeIdx.toNat = some ([0] ++ [0]) ∧
     c10model.visibleNodes
       = flattenChildren c10model.modeHidden c10model.treeRoot.children 0 ∧
     ([0] : Pos) ≠ [] ∧
     subtreeAt c10model.treeRoot [0]
       = some (treeNode.node (some ⟨['a'], true, false⟩) true true
           [treeNode.node (some ⟨['b'], false, false⟩) false false []]) ∧
     (⟨['a'], true, false⟩ : entry).isDir = true ∧
     entryAt c10model.treeRoot ([0] ++ [0]) = some ⟨['b'], false, false⟩) ∧
    (∃ (mc me : model) (q : Pos),
      treeCollapse (fun _ _ => ([] : List Match)) c10model = some mc ∧
      treeExpand (fun _ _ => ([] : List Match)) mc = some me ∧
      me.treeRoot = c10model.treeRoot ∧
      selectedTreeNode me = some q ∧
      q.dropLast = [0] ∧
      ∃ e, entryAt me.treeRoot q = some e ∧
        e.name = (⟨['b'], false, false⟩ : entry).name) :=
  ⟨⟨rfl, by decide, rfl, rfl, by decide, rfl, rfl, rfl⟩,
   c10_collapse_expand (fun _ _ => ([] : List Match)) c10model [0] 0
     ⟨['a'], true, false⟩ ⟨['b'], false, false⟩
     [treeNode.node (some ⟨['b'], false, false⟩) false false []]
     rfl (by decide) rfl rfl (by decide) rfl rfl rfl⟩

end Nav
